import Mathlib

/-!
Verification of the Fourwords USFM word-substitution tool (`fourwords.py`).

Python strings are modelled as `List Char`; the ASCII string and regex
operations the program performs are embedded as executable functions.
Randomness (`random.choice`) is modelled by an explicit stream `g : Nat → Nat`
of draws; a draw from an empty list returns `none`, modelling the `IndexError`
Python raises there.  The unbounded rejection-sampling loop of the token
generator takes explicit fuel; `none` means the loop did not finish within the
given number of iterations.
-/

namespace Fourwords

abbrev Str := List Char

/-- Python `str.lower()` (ASCII range, matching `Char.toLower`). -/
def pyLower (s : Str) : Str := s.map Char.toLower

/-- Python `str.upper()` (ASCII range). -/
def pyUpper (s : Str) : Str := s.map Char.toUpper

/-- Python `str.capitalize()`: first character uppercased, the rest lowercased. -/
def pyCapitalize : Str → Str
  | [] => []
  | c :: cs => c.toUpper :: cs.map Char.toLower

/-- Python `str.isupper()` on ASCII text: at least one cased character and no
lowercase cased character. -/
def pyIsUpper (s : Str) : Bool := s.any Char.isAlpha && s.all (fun c => !c.isLower)

/-- `s[0].isupper()`.  The source only evaluates this on nonempty strings. -/
def headIsUpper : Str → Bool
  | [] => false
  | c :: _ => c.isUpper

/-- `(Char.ofNat n).toNat = n` for valid scalar values below the surrogate range. -/
theorem char_toNat_ofNat (n : Nat) (h : n < 55296) : (Char.ofNat n).toNat = n := by
  have hv : n.isValidChar := Or.inl h
  rw [Char.ofNat, dif_pos hv]
  show (UInt32.ofNatCore n _).toNat = n
  simp [UInt32.ofNatCore, UInt32.toNat, BitVec.toNat_ofNat]

/-- `Char.toLower` is idempotent. -/
theorem toLower_idem (c : Char) : Char.toLower (Char.toLower c) = Char.toLower c := by
  simp only [Char.toLower]
  by_cases h : c.toNat ≥ 65 ∧ c.toNat ≤ 90
  · rw [if_pos h]
    have h2 : (Char.ofNat (c.toNat + 32)).toNat = c.toNat + 32 :=
      char_toNat_ofNat _ (by omega)
    rw [if_neg (by omega)]
  · rw [if_neg h, if_neg h]

/-- `pyLower` is idempotent. -/
theorem pyLower_idem (s : Str) : pyLower (pyLower s) = pyLower s := by
  simp [pyLower, Function.comp, toLower_idem]

/- ## Token generator (`generate_unique_nonsense_words`) -/

/-- `random.choice(l)` driven by one stream draw `r`; `none` models the
`IndexError` raised on an empty list. -/
def pyChoice (l : List Char) (r : Nat) : Option Char := l[r % l.length]?

/-- Strip one surrounding pair of square brackets:
`if chars.startswith('[') and chars.endswith(']'): chars = chars[1:-1]`. -/
def stripBrackets (s : Str) : Str :=
  if s.head? = some '[' ∧ s.getLast? = some ']' then (s.drop 1).dropLast else s

/-- One 4-character random word:
`''.join(random.choice(char_list) for _ in range(4))`, drawing stream values
`4*t .. 4*t+3`. -/
def genWord (cl : List Char) (g : Nat → Nat) (t : Nat) : Option Str :=
  match pyChoice cl (g (4*t)), pyChoice cl (g (4*t+1)),
        pyChoice cl (g (4*t+2)), pyChoice cl (g (4*t+3)) with
  | some a, some b, some c, some d => some [a, b, c, d]
  | _, _, _, _ => none

/-- The rejection-sampling loop `while len(words) < num_words`, with the set of
already-generated words kept as a duplicate-free list in insertion order. -/
def genLoop (cl : List Char) (g : Nat → Nat) :
    Nat → List Str → Nat → Nat → Option (List Str)
  | fuel, words, target, t =>
    if target ≤ words.length then some words
    else
      match fuel with
      | 0 => none
      | fuel' + 1 =>
        match genWord cl g t with
        | none => none
        | some w =>
          genLoop cl g fuel' (if w ∈ words then words else words ++ [w]) target (t + 1)

/-- `generate_unique_nonsense_words(chars, num_words)`.  Returns the warning
flag (`True` when the request exceeded `len(char_list) ** 4` and was clamped)
together with the generated words. -/
def generate_unique_nonsense_words (g : Nat → Nat) (fuel : Nat) (chars : Str)
    (num_words : Nat) : Option (Bool × List Str) :=
  let char_list := stripBrackets chars
  let max_possible := char_list.length ^ 4
  let warned := decide (num_words > max_possible)
  let target := if num_words > max_possible then max_possible else num_words
  (genLoop char_list g fuel [] target 0).map (fun ws => (warned, ws))

/- ## Lexicon construction (`create_lexicon`) -/

structure WordRecord where
  original : Str
  preserve_caps : Bool
  count : Nat
deriving Repr, DecidableEq

abbrev Vocab := List (Str × WordRecord)

/-- `vocab_items.sort(key=lambda x: x[1]['count'], reverse=True)`: a stable
sort by count descending (Python's sort is stable). -/
def sortByCountDesc (v : Vocab) : Vocab :=
  List.insertionSort (fun a b => b.2.count ≤ a.2.count) v

/-- The fallback token of `create_lexicon`:
`''.join(random.choice(list(nonsense_words[0])) for _ in range(4))`.
`none` models the `IndexError` when `nonsense_words` is empty or its first
word has no characters. -/
def fallbackWord (nw : List Str) (g : Nat → Nat) (k : Nat) : Option Str :=
  match nw.head? with
  | none => none
  | some f => genWord f g k

/-- The assignment loop of `create_lexicon` over the sorted vocabulary items,
threading the item index `i`. -/
def assignTokens (g : Nat → Nat) (nw : List Str) :
    Vocab → Nat → Option (List (Str × Str))
  | [], _ => some []
  | (w, _) :: rest, i =>
    let tok? : Option Str :=
      match nw[i]? with
      | some t => some t
      | none => fallbackWord nw g (i - nw.length)
    match tok? with
    | none => none
    | some tok => (assignTokens g nw rest (i + 1)).map (fun l => (w, tok) :: l)

/-- `create_lexicon(vocabulary, nonsense_words)`. -/
def create_lexicon (g : Nat → Nat) (vocabulary : Vocab) (nonsense_words : List Str) :
    Option (List (Str × Str)) :=
  assignTokens g nonsense_words (sortByCountDesc vocabulary) 0

/- ## Generator lemmas -/

theorem pyChoice_mem {cl : List Char} {r : Nat} {c : Char}
    (h : pyChoice cl r = some c) : c ∈ cl := by
  unfold pyChoice at h
  rw [List.getElem?_eq_some] at h
  obtain ⟨hlt, hEq⟩ := h
  exact hEq ▸ List.getElem_mem hlt

theorem pyChoice_total {cl : List Char} (hne : cl ≠ []) (r : Nat) :
    ∃ c, pyChoice cl r = some c := by
  have hlt : r % cl.length < cl.length := Nat.mod_lt _ (List.length_pos.mpr hne)
  exact ⟨cl[r % cl.length], by unfold pyChoice; exact List.getElem?_eq_getElem hlt⟩

theorem genWord_spec {cl : List Char} {g : Nat → Nat} {t : Nat} {w : Str}
    (h : genWord cl g t = some w) : w.length = 4 ∧ ∀ c ∈ w, c ∈ cl := by
  unfold genWord at h
  split at h
  · rename_i a b c d ha hb hc hd
    cases h
    refine ⟨rfl, ?_⟩
    intro x hx
    simp only [List.mem_cons, List.not_mem_nil, or_false] at hx
    rcases hx with rfl | rfl | rfl | rfl
    · exact pyChoice_mem ha
    · exact pyChoice_mem hb
    · exact pyChoice_mem hc
    · exact pyChoice_mem hd
  · exact absurd h (by simp)

theorem genWord_total (f : List Char) (g : Nat → Nat) (k : Nat) (hne : f ≠ []) :
    ∃ w, genWord f g k = some w ∧ w.length = 4 ∧ ∀ c ∈ w, c ∈ f := by
  obtain ⟨a, ha⟩ := pyChoice_total hne (g (4*k))
  obtain ⟨b, hb⟩ := pyChoice_total hne (g (4*k+1))
  obtain ⟨c, hc⟩ := pyChoice_total hne (g (4*k+2))
  obtain ⟨d, hd⟩ := pyChoice_total hne (g (4*k+3))
  refine ⟨[a, b, c, d], ?_, rfl, ?_⟩
  · unfold genWord
    rw [ha, hb, hc, hd]
  · intro x hx
    simp only [List.mem_cons, List.not_mem_nil, or_false] at hx
    rcases hx with rfl | rfl | rfl | rfl
    · exact pyChoice_mem ha
    · exact pyChoice_mem hb
    · exact pyChoice_mem hc
    · exact pyChoice_mem hd

theorem genLoop_spec (cl : List Char) (g : Nat → Nat) :
    ∀ fuel (words : List Str) target t ws,
      genLoop cl g fuel words target t = some ws →
      words.length ≤ target → words.Nodup →
      (∀ w ∈ words, w.length = 4 ∧ ∀ c ∈ w, c ∈ cl) →
      ws.length = target ∧ ws.Nodup ∧ ∀ w ∈ ws, w.length = 4 ∧ ∀ c ∈ w, c ∈ cl := by
  intro fuel
  induction fuel with
  | zero =>
    intro words target t ws h hle hnd hok
    rw [genLoop] at h
    by_cases hc : target ≤ words.length
    · rw [if_pos hc] at h
      cases h
      exact ⟨le_antisymm hle hc, hnd, hok⟩
    · rw [if_neg hc] at h
      exact absurd h (by simp)
  | succ fuel ih =>
    intro words target t ws h hle hnd hok
    rw [genLoop] at h
    by_cases hc : target ≤ words.length
    · rw [if_pos hc] at h
      cases h
      exact ⟨le_antisymm hle hc, hnd, hok⟩
    · rw [if_neg hc] at h
      cases hw : genWord cl g t with
      | none => rw [hw] at h; exact absurd h (by simp)
      | some w =>
        rw [hw] at h
        dsimp only at h
        have hws := genWord_spec hw
        by_cases hmem : w ∈ words
        · rw [if_pos hmem] at h
          exact ih _ _ _ _ h hle hnd hok
        · rw [if_neg hmem] at h
          refine ih _ _ _ _ h ?_ ?_ ?_
          · have : words.length < target := lt_of_not_le hc
            simp only [List.length_append, List.length_cons, List.length_nil]
            omega
          · simp only [List.nodup_append, List.nodup_cons, List.nodup_nil]
            exact ⟨hnd, by simp, by simpa using hmem⟩
          · intro x hx
            rcases List.mem_append.mp hx with h1 | h2
            · exact hok x h1
            · simp only [List.mem_singleton] at h2
              exact h2 ▸ hws

/-- C2: whenever the generator terminates, it returns pairwise-distinct
4-character words over the stripped alphabet; the count is the request when it
fits in `|A|^4`, and the clamped maximum (with the warning flag set) otherwise. -/
theorem generate_unique_nonsense_words_spec (g : Nat → Nat) (fuel : Nat) (chars : Str)
    (num_words : Nat) (warned : Bool) (ws : List Str)
    (h : generate_unique_nonsense_words g fuel chars num_words = some (warned, ws)) :
    (num_words ≤ (stripBrackets chars).length ^ 4 →
       warned = false ∧ ws.length = num_words) ∧
    ((stripBrackets chars).length ^ 4 < num_words →
       warned = true ∧ ws.length = (stripBrackets chars).length ^ 4) ∧
    ws.Nodup ∧ ∀ w ∈ ws, w.length = 4 ∧ ∀ c ∈ w, c ∈ stripBrackets chars := by
  unfold generate_unique_nonsense_words at h
  simp only [Option.map_eq_some'] at h
  obtain ⟨ws', hloop, heq⟩ := h
  have hw : warned = decide (num_words > (stripBrackets chars).length ^ 4) :=
    (congrArg Prod.fst heq).symm
  have hws : ws = ws' := (congrArg Prod.snd heq).symm
  subst hws
  have hmain := genLoop_spec (stripBrackets chars) g fuel [] _ 0 ws hloop
    (by simp) (by simp) (by simp)
  obtain ⟨hlen, hnd, hok⟩ := hmain
  refine ⟨?_, ?_, hnd, hok⟩
  · intro hle
    have hng : ¬ (num_words > (stripBrackets chars).length ^ 4) := not_lt.mpr hle
    constructor
    · rw [hw]; simp [hng]
    · rw [hlen, if_neg hng]
  · intro hgt
    constructor
    · rw [hw]; simp [hgt]
    · rw [hlen, if_pos hgt]

/-- Witness for C2: a concrete terminating run over alphabet "ab" requesting 2
words yields 2 distinct 4-character words, no warning. -/
theorem generate_unique_nonsense_words_spec_witness :
    (2 ≤ (stripBrackets "ab".toList).length ^ 4 →
       false = false ∧ ([['a','a','a','a'], ['b','b','b','b']] : List Str).length = 2) ∧
    ((stripBrackets "ab".toList).length ^ 4 < 2 →
       false = true ∧ ([['a','a','a','a'], ['b','b','b','b']] : List Str).length =
         (stripBrackets "ab".toList).length ^ 4) ∧
    ([['a','a','a','a'], ['b','b','b','b']] : List Str).Nodup ∧
    ∀ w ∈ ([['a','a','a','a'], ['b','b','b','b']] : List Str),
      w.length = 4 ∧ ∀ c ∈ w, c ∈ stripBrackets "ab".toList :=
  generate_unique_nonsense_words_spec (fun k => k / 4) 2 "ab".toList 2 false
    [['a','a','a','a'], ['b','b','b','b']] (by decide)

/-- C7: on an empty alphabet the source does NOT raise: `0 ** 4 = 0` clamps the
request to zero, the sampling loop body never runs (zero fuel suffices), and the
function promptly returns a warning flag and an empty word list. -/
theorem generate_empty_alphabet_returns_promptly :
    generate_unique_nonsense_words (fun k => k) 0 [] 5 = some (true, []) := by decide

/- ## `create_lexicon` lemmas -/

instance : IsTotal (Str × WordRecord) (fun a b => b.2.count ≤ a.2.count) :=
  ⟨fun a b => Nat.le_total b.2.count a.2.count⟩

instance : IsTrans (Str × WordRecord) (fun a b => b.2.count ≤ a.2.count) :=
  ⟨fun _ _ _ hab hbc => le_trans hbc hab⟩

theorem assignTokens_spec (g : Nat → Nat) (nw : List Str) :
    ∀ (l : Vocab) (i : Nat),
      (∀ j, i ≤ j → j < i + l.length → nw.length ≤ j →
         ∃ f, nw.head? = some f ∧ f ≠ []) →
      ∃ out, assignTokens g nw l i = some out ∧
        out.map Prod.fst = l.map Prod.fst ∧
        ∀ j, j < l.length → ∃ w tok, out[j]? = some (w, tok) ∧
          l[j]?.map Prod.fst = some w ∧
          (i + j < nw.length → nw[i + j]? = some tok) ∧
          (nw.length ≤ i + j → tok.length = 4 ∧
             ∃ f, nw.head? = some f ∧ ∀ c ∈ tok, c ∈ f) := by
  intro l
  induction l with
  | nil =>
    intro i _
    exact ⟨[], rfl, rfl, by simp⟩
  | cons e rest ih =>
    intro i hf
    obtain ⟨w, r⟩ := e
    have htok : ∃ tok, (match nw[i]? with
        | some t => some t
        | none => fallbackWord nw g (i - nw.length)) = some tok ∧
        (i < nw.length → nw[i]? = some tok) ∧
        (nw.length ≤ i → tok.length = 4 ∧
           ∃ f, nw.head? = some f ∧ ∀ c ∈ tok, c ∈ f) := by
      by_cases hi : i < nw.length
      · refine ⟨nw[i], ?_, ?_, ?_⟩
        · rw [List.getElem?_eq_getElem hi]
        · intro _; exact List.getElem?_eq_getElem hi
        · intro hc; omega
      · have h1 : nw[i]? = none := List.getElem?_eq_none (le_of_not_lt hi)
        obtain ⟨f, hh, hne⟩ := hf i le_rfl (by simp) (le_of_not_lt hi)
        obtain ⟨tok, htk, h4, hmem⟩ := genWord_total f g (i - nw.length) hne
        refine ⟨tok, ?_, fun hc => absurd hc hi, fun _ => ⟨h4, f, hh, hmem⟩⟩
        rw [h1]
        unfold fallbackWord
        rw [hh]
        exact htk
    obtain ⟨tok, htk, htk1, htk2⟩ := htok
    obtain ⟨out', hout', hmap, hidx⟩ := ih (i + 1)
      (fun j hj1 hj2 hj3 => hf j (by omega) (by simp only [List.length_cons]; omega) hj3)
    refine ⟨(w, tok) :: out', ?_, by simp [hmap], ?_⟩
    · show (match (match nw[i]? with
          | some t => some t
          | none => fallbackWord nw g (i - nw.length)) with
          | none => none
          | some tok => (assignTokens g nw rest (i + 1)).map (fun l => (w, tok) :: l))
          = some ((w, tok) :: out')
      rw [htk, hout']
      rfl
    · intro j hj
      cases j with
      | zero =>
        refine ⟨w, tok, by simp, by simp, ?_, ?_⟩
        · intro hlt; exact htk1 (by omega)
        · intro hge
          exact htk2 (by omega)
      | succ j' =>
        obtain ⟨w', tok', h1, h2, h3, h4⟩ := hidx j' (by simp only [List.length_cons] at hj; omega)
        refine ⟨w', tok', by rw [List.getElem?_cons_succ]; exact h1,
          by rw [List.getElem?_cons_succ]; exact h2, ?_, ?_⟩
        · intro hlt
          have := h3 (by omega)
          have harith : i + 1 + j' = i + (j' + 1) := by omega
          rwa [harith] at this
        · intro hge
          have := h4 (by omega)
          exact this

/-- C1 (amended): provided the vocabulary fits in the token list, or the token
list has a nonempty first token (so the fallback draw cannot fail),
`create_lexicon` returns a mapping whose key multiset is exactly the
vocabulary's canonical forms (one entry per word), assigning the i-th token of
the list to the i-th vocabulary entry in descending-count order, and a
4-character fallback token drawn from the characters of the first token when
the supply is exhausted. -/
theorem create_lexicon_assigns_tokens (g : Nat → Nat) (vocabulary : Vocab)
    (nw : List Str) (hnd : (vocabulary.map Prod.fst).Nodup)
    (hok : vocabulary.length ≤ nw.length ∨ ∃ f, nw.head? = some f ∧ f ≠ []) :
    ∃ lex, create_lexicon g vocabulary nw = some lex ∧
      lex.length = vocabulary.length ∧
      (∀ w, (∃ tok, (w, tok) ∈ lex) ↔ ∃ r, (w, r) ∈ vocabulary) ∧
      (lex.map Prod.fst).Nodup ∧
      List.Sorted (fun a b => b.2.count ≤ a.2.count) (sortByCountDesc vocabulary) ∧
      ∀ j, j < vocabulary.length → ∃ w tok, lex[j]? = some (w, tok) ∧
        (sortByCountDesc vocabulary)[j]?.map Prod.fst = some w ∧
        (j < nw.length → nw[j]? = some tok) ∧
        (nw.length ≤ j → tok.length = 4 ∧
           ∃ f, nw.head? = some f ∧ ∀ c ∈ tok, c ∈ f) := by
  have hperm : (sortByCountDesc vocabulary).Perm vocabulary :=
    List.perm_insertionSort _ vocabulary
  have hlen : (sortByCountDesc vocabulary).length = vocabulary.length := hperm.length_eq
  have hf : ∀ j, 0 ≤ j → j < 0 + (sortByCountDesc vocabulary).length →
      nw.length ≤ j → ∃ f, nw.head? = some f ∧ f ≠ [] := by
    intro j _ hj2 hj3
    rcases hok with hle | hex
    · rw [Nat.zero_add, hlen] at hj2; omega
    · exact hex
  obtain ⟨lex, hout, hmap, hidx⟩ := assignTokens_spec g nw (sortByCountDesc vocabulary) 0 hf
  have hmapfst : lex.map Prod.fst = (sortByCountDesc vocabulary).map Prod.fst := hmap
  have hpermfst : (lex.map Prod.fst).Perm (vocabulary.map Prod.fst) :=
    hmapfst ▸ hperm.map Prod.fst
  refine ⟨lex, hout, ?_, ?_, ?_, ?_, ?_⟩
  · have := congrArg List.length hmapfst
    simp only [List.length_map] at this
    rw [this, hlen]
  · intro w
    constructor
    · rintro ⟨tok, htok⟩
      have hw : w ∈ vocabulary.map Prod.fst :=
        hpermfst.mem_iff.mp (List.mem_map.mpr ⟨(w, tok), htok, rfl⟩)
      obtain ⟨⟨w', r⟩, hmem, heq⟩ := List.mem_map.mp hw
      dsimp only at heq
      subst heq
      exact ⟨r, hmem⟩
    · rintro ⟨r, hr⟩
      have hw : w ∈ lex.map Prod.fst :=
        hpermfst.mem_iff.mpr (List.mem_map.mpr ⟨(w, r), hr, rfl⟩)
      obtain ⟨⟨w', tok⟩, hmem, heq⟩ := List.mem_map.mp hw
      dsimp only at heq
      subst heq
      exact ⟨tok, hmem⟩
  · exact hpermfst.nodup_iff.mpr hnd
  · exact List.sorted_insertionSort _ vocabulary
  · intro j hj
    obtain ⟨w, tok, h1, h2, h3, h4⟩ := hidx j (by omega)
    exact ⟨w, tok, h1, h2, fun hlt => by simpa using h3 (by omega),
           fun hge => h4 (by omega)⟩

/-- Witness for C1 (amended) at a concrete input exercising the fallback branch. -/
theorem create_lexicon_assigns_tokens_witness :
    ∃ lex, create_lexicon (fun _ => 0)
        [(['a'], ⟨['a'], false, 2⟩), (['b'], ⟨['b'], false, 1⟩)]
        [['x','x','x','x']] = some lex ∧
      lex.length = ([(['a'], ⟨['a'], false, 2⟩), (['b'], ⟨['b'], false, 1⟩)] : Vocab).length ∧
      (∀ w, (∃ tok, (w, tok) ∈ lex) ↔
        ∃ r, (w, r) ∈ ([(['a'], ⟨['a'], false, 2⟩), (['b'], ⟨['b'], false, 1⟩)] : Vocab)) ∧
      (lex.map Prod.fst).Nodup ∧
      List.Sorted (fun a b => b.2.count ≤ a.2.count)
        (sortByCountDesc [(['a'], ⟨['a'], false, 2⟩), (['b'], ⟨['b'], false, 1⟩)]) ∧
      ∀ j, j < ([(['a'], ⟨['a'], false, 2⟩), (['b'], ⟨['b'], false, 1⟩)] : Vocab).length →
        ∃ w tok, lex[j]? = some (w, tok) ∧
        (sortByCountDesc [(['a'], ⟨['a'], false, 2⟩), (['b'], ⟨['b'], false, 1⟩)])[j]?.map
          Prod.fst = some w ∧
        (j < ([['x','x','x','x']] : List Str).length →
          ([['x','x','x','x']] : List Str)[j]? = some tok) ∧
        (([['x','x','x','x']] : List Str).length ≤ j → tok.length = 4 ∧
          ∃ f, ([['x','x','x','x']] : List Str).head? = some f ∧ ∀ c ∈ tok, c ∈ f) :=
  create_lexicon_assigns_tokens (fun _ => 0)
    [(['a'], ⟨['a'], false, 2⟩), (['b'], ⟨['b'], false, 1⟩)]
    [['x','x','x','x']] (by decide) (Or.inr ⟨['x','x','x','x'], rfl, by decide⟩)

/-- C1 counterexample: with two vocabulary entries and a token list holding a
single empty string, the fallback draw fails (`random.choice(list(''))` raises
in Python), so `create_lexicon` returns no mapping at all — refuting the claim
for arbitrary token lists. -/
theorem create_lexicon_empty_first_token_fails :
    create_lexicon (fun _ => 0)
      [(['a'], ⟨['a'], false, 1⟩), (['b'], ⟨['b'], false, 1⟩)] [[]] = none := by
  decide

/- ## Character classes used by the regexes -/

/-- Python regex `\s` (ASCII range). -/
def isPySpace (c : Char) : Bool :=
  c = ' ' || c = '\t' || c = '\n' || c = '\r' || c = '\x0b' || c = '\x0c'

/-- Python regex `\w` (ASCII range): letters, digits, underscore. -/
def isWordChar (c : Char) : Bool := c.isAlpha || c.isDigit || c = '_'

/-- The sentence-splitting delimiters `[.!?]`. -/
def isSentEnd (c : Char) : Bool := c = '.' || c = '!' || c = '?'

/-- The punctuation class `[.!?;:,]` of the spacing fix-ups. -/
def isFixPunct (c : Char) : Bool :=
  c = '.' || c = '!' || c = '?' || c = ';' || c = ':' || c = ','

/-- The class `[A-Z0-9]` of the identifier-line code. -/
def isUpperDigit (c : Char) : Bool := c.isUpper || c.isDigit

theorem dropWhile_length_le {α : Type} (p : α → Bool) (l : List α) :
    (l.dropWhile p).length ≤ l.length :=
  (List.dropWhile_sublist p).length_le

/- ## Vocabulary extraction (`extract_vocabulary_from_usfm`) -/

/-- The tag-stripping substitution
`re.sub(r'\\[a-zA-Z]+[0-9]*\s*(?:\d+\s*)?', ' ', content)`:
each match (backslash, letters, optional digits, optional whitespace,
optional digit-argument with trailing whitespace, all greedy) becomes one
space. -/
def stripTags : Str → Str
  | [] => []
  | '\\' :: rest =>
    if (rest.takeWhile Char.isAlpha).isEmpty then '\\' :: stripTags rest
    else
      if ((((rest.dropWhile Char.isAlpha).dropWhile Char.isDigit).dropWhile
            isPySpace).takeWhile Char.isDigit).isEmpty then
        ' ' :: stripTags
          (((rest.dropWhile Char.isAlpha).dropWhile Char.isDigit).dropWhile isPySpace)
      else
        ' ' :: stripTags
          (((((rest.dropWhile Char.isAlpha).dropWhile Char.isDigit).dropWhile
            isPySpace).dropWhile Char.isDigit).dropWhile isPySpace)
  | c :: rest => c :: stripTags rest
termination_by l => l.length
decreasing_by
  all_goals simp only [List.length_cons]
  · omega
  · have h1 := dropWhile_length_le Char.isAlpha rest
    have h2 := dropWhile_length_le Char.isDigit (rest.dropWhile Char.isAlpha)
    have h3 := dropWhile_length_le isPySpace
      ((rest.dropWhile Char.isAlpha).dropWhile Char.isDigit)
    omega
  · have h1 := dropWhile_length_le Char.isAlpha rest
    have h2 := dropWhile_length_le Char.isDigit (rest.dropWhile Char.isAlpha)
    have h3 := dropWhile_length_le isPySpace
      ((rest.dropWhile Char.isAlpha).dropWhile Char.isDigit)
    have h4 := dropWhile_length_le Char.isDigit
      (((rest.dropWhile Char.isAlpha).dropWhile Char.isDigit).dropWhile isPySpace)
    have h5 := dropWhile_length_le isPySpace
      ((((rest.dropWhile Char.isAlpha).dropWhile Char.isDigit).dropWhile
        isPySpace).dropWhile Char.isDigit)
    omega
  · omega

/-- `re.split(r'[.!?]+', text)`: pieces between maximal delimiter runs. -/
def splitSentences (l : Str) : List Str :=
  match h : l.dropWhile (fun c => !isSentEnd c) with
  | [] => [l.takeWhile (fun c => !isSentEnd c)]
  | _ :: rest' =>
    l.takeWhile (fun c => !isSentEnd c) :: splitSentences (rest'.dropWhile isSentEnd)
termination_by l.length
decreasing_by
  have h1 := dropWhile_length_le (fun c => !isSentEnd c) l
  have h2 := congrArg List.length h
  have h3 := dropWhile_length_le isSentEnd rest'
  simp only [List.length_cons] at h2
  omega

/-- `re.findall(r'\b[a-zA-Z]+\b', s)`: maximal ASCII-letter runs with a word
boundary on both sides.  `prevW` records whether the previous character is a
word character (`\w`). -/
def findWordsAux : Bool → Str → List Str
  | _, [] => []
  | prevW, c :: rest =>
    if c.isAlpha then
      (if !prevW && (match rest.dropWhile Char.isAlpha with
          | [] => true
          | d :: _ => !isWordChar d) then
        [c :: rest.takeWhile Char.isAlpha]
      else []) ++ findWordsAux true (rest.dropWhile Char.isAlpha)
    else
      findWordsAux (isWordChar c) rest
termination_by _ l => l.length
decreasing_by
  · have h1 := dropWhile_length_le Char.isAlpha rest
    simp only [List.length_cons]
    omega
  · simp only [List.length_cons]
    omega

def findWords (l : Str) : List Str := findWordsAux false l

/-- Python `str.strip()`. -/
def pyStrip (l : Str) : Str :=
  ((l.dropWhile isPySpace).reverse.dropWhile isPySpace).reverse

/-- The capitalization classification of one word occurrence at position `i`
within its sentence: `(word[0].isupper() and i > 0) or (word.isupper() and
len(word) > 1)`. -/
def preserveCapsOf (word : Str) (i : Nat) : Bool :=
  (headIsUpper word && decide (0 < i)) || (pyIsUpper word && decide (1 < word.length))

/-- Rewrite the record stored under `key` in place (`vocabulary[key] = ...`),
leaving all other entries untouched. -/
def updateEntry (v : Vocab) (key : Str) (f : WordRecord → WordRecord) : Vocab :=
  v.map (fun e => if e.1 = key then (e.1, f e.2) else e)

/-- One sighting of `word` at sentence position `i` (`iw = (i, word)`): the
insert-or-update step of `extract_vocabulary_from_usfm`. -/
def addSighting (v : Vocab) (iw : Nat × Str) : Vocab :=
  match List.lookup (pyLower iw.2) v with
  | none => v ++ [(pyLower iw.2,
      ⟨if preserveCapsOf iw.2 iw.1 then iw.2 else pyLower iw.2,
       preserveCapsOf iw.2 iw.1, 1⟩)]
  | some _ =>
    updateEntry v (pyLower iw.2) (fun r =>
      ⟨if preserveCapsOf iw.2 iw.1 && !r.preserve_caps then iw.2 else r.original,
       r.preserve_caps || preserveCapsOf iw.2 iw.1,
       r.count + 1⟩)

/-- `extract_vocabulary_from_usfm` on document text (the file read is thin
glue): strip tags, split into sentences, find words, record each sighting. -/
def extract_vocabulary_from_usfm (content : Str) : Vocab :=
  (splitSentences (stripTags content)).foldl
    (fun v s => ((findWords (pyStrip s)).enum).foldl addSighting v) []

/- ## Vocabulary merging (the loop of `process_usfm_directory`) -/

/-- Fold one per-document record into the corpus vocabulary. -/
def mergeEntry (acc : Vocab) (e : Str × WordRecord) : Vocab :=
  match List.lookup e.1 acc with
  | none => acc ++ [e]
  | some _ =>
    updateEntry acc e.1 (fun r =>
      ⟨if e.2.preserve_caps && !r.preserve_caps then e.2.original else r.original,
       r.preserve_caps || e.2.preserve_caps,
       r.count + e.2.count⟩)

/-- Merge one per-document vocabulary into the accumulator. -/
def mergeVocabs (acc : Vocab) (v : Vocab) : Vocab := v.foldl mergeEntry acc

/- ## Lookup lemmas for the update step -/

theorem lookup_cons_true {k a : Str} (h : (k == a) = true) (b : WordRecord)
    (es : Vocab) : List.lookup k ((a, b) :: es) = some b := by
  rw [List.lookup_cons, h]

theorem lookup_cons_false {k a : Str} (h : (k == a) = false) (b : WordRecord)
    (es : Vocab) : List.lookup k ((a, b) :: es) = List.lookup k es := by
  rw [List.lookup_cons, h]

theorem updateEntry_cons (a : Str) (b : WordRecord) (t : Vocab) (key : Str)
    (f : WordRecord → WordRecord) :
    updateEntry ((a, b) :: t) key f
      = (if a = key then (a, f b) else (a, b)) :: updateEntry t key f := rfl

theorem lookup_updateEntry_self (v : Vocab) (key : Str) (f : WordRecord → WordRecord) :
    List.lookup key (updateEntry v key f) = (List.lookup key v).map f := by
  induction v with
  | nil => rfl
  | cons e t ih =>
    obtain ⟨a, b⟩ := e
    rw [updateEntry_cons]
    by_cases h : a = key
    · subst h
      rw [if_pos rfl, lookup_cons_true (beq_self_eq_true a) (f b),
        lookup_cons_true (beq_self_eq_true a) b]
      rfl
    · have hbeq : (key == a) = false :=
        beq_eq_false_iff_ne.mpr (fun hk => h hk.symm)
      rw [if_neg h, lookup_cons_false hbeq, lookup_cons_false hbeq, ih]

theorem lookup_updateEntry_other (v : Vocab) (key key' : Str)
    (f : WordRecord → WordRecord) (h : key' ≠ key) :
    List.lookup key' (updateEntry v key f) = List.lookup key' v := by
  induction v with
  | nil => rfl
  | cons e t ih =>
    obtain ⟨a, b⟩ := e
    rw [updateEntry_cons]
    by_cases ha : a = key
    · subst ha
      have hbeq : (key' == a) = false := beq_eq_false_iff_ne.mpr h
      rw [if_pos rfl, lookup_cons_false hbeq, lookup_cons_false hbeq, ih]
    · cases hbeq : (key' == a) with
      | false => rw [if_neg ha, lookup_cons_false hbeq, lookup_cons_false hbeq, ih]
      | true => rw [if_neg ha, lookup_cons_true hbeq, lookup_cons_true hbeq]

theorem lookup_append_left {v : Vocab} {w : Str} {r : WordRecord}
    (h : List.lookup w v = some r) (x : Vocab) :
    List.lookup w (v ++ x) = some r := by
  rw [List.lookup_append, h]
  rfl

/- ## C8: the preserveCaps latch -/

/-- One abstract mutation of the corpus vocabulary: either a sighting recorded
during extraction or a merge of an incoming per-document record. -/
inductive VocabStep where
  | sight (i : Nat) (word : Str)
  | merge (e : Str × WordRecord)

def applyStep (v : Vocab) : VocabStep → Vocab
  | .sight i word => addSighting v (i, word)
  | .merge e => mergeEntry v e

def applySteps (v : Vocab) (steps : List VocabStep) : Vocab :=
  steps.foldl applyStep v

theorem addSighting_latch (v : Vocab) (iw : Nat × Str) (w : Str) (r : WordRecord)
    (hl : List.lookup w v = some r) (hpc : r.preserve_caps = true) :
    ∃ r', List.lookup w (addSighting v iw) = some r' ∧
      r'.preserve_caps = true ∧ r'.original = r.original := by
  unfold addSighting
  cases hlk : List.lookup (pyLower iw.2) v with
  | none =>
    simp only [hlk]
    exact ⟨r, lookup_append_left hl _, hpc, rfl⟩
  | some r0 =>
    simp only [hlk]
    by_cases hw : w = pyLower iw.2
    · subst hw
      rw [lookup_updateEntry_self, hl]
      refine ⟨_, rfl, ?_, ?_⟩
      · simp [hpc]
      · simp [hpc]
    · rw [lookup_updateEntry_other _ _ _ _ hw, hl]
      exact ⟨r, rfl, hpc, rfl⟩

theorem mergeEntry_latch (v : Vocab) (e : Str × WordRecord) (w : Str) (r : WordRecord)
    (hl : List.lookup w v = some r) (hpc : r.preserve_caps = true) :
    ∃ r', List.lookup w (mergeEntry v e) = some r' ∧
      r'.preserve_caps = true ∧ r'.original = r.original := by
  unfold mergeEntry
  cases hlk : List.lookup e.1 v with
  | none =>
    simp only [hlk]
    exact ⟨r, lookup_append_left hl _, hpc, rfl⟩
  | some r0 =>
    simp only [hlk]
    by_cases hw : w = e.1
    · subst hw
      rw [lookup_updateEntry_self, hl]
      refine ⟨_, rfl, ?_, ?_⟩
      · simp [hpc]
      · simp [hpc]
    · rw [lookup_updateEntry_other _ _ _ _ hw, hl]
      exact ⟨r, rfl, hpc, rfl⟩

/-- C8: the preserveCaps flag is a monotonic latch.  Once a canonical form's
stored record has `preserve_caps = true`, no later sequence of sightings
(extraction updates) and merges flips it back or changes the stored
displayForm at all — in particular it is never replaced by a lowercase form. -/
theorem preserveCaps_latch (steps : List VocabStep) :
    ∀ (v : Vocab) (w : Str) (r : WordRecord),
      List.lookup w v = some r → r.preserve_caps = true →
      ∃ r', List.lookup w (applySteps v steps) = some r' ∧
        r'.preserve_caps = true ∧ r'.original = r.original := by
  induction steps with
  | nil => intro v w r hl hpc; exact ⟨r, hl, hpc, rfl⟩
  | cons s rest ih =>
    intro v w r hl hpc
    have hstep : ∃ r', List.lookup w (applyStep v s) = some r' ∧
        r'.preserve_caps = true ∧ r'.original = r.original := by
      cases s with
      | sight i word => exact addSighting_latch v (i, word) w r hl hpc
      | merge e => exact mergeEntry_latch v e w r hl hpc
    obtain ⟨r', hl', hpc', horig'⟩ := hstep
    obtain ⟨r'', hl'', hpc'', horig''⟩ := ih (applyStep v s) w r' hl' hpc'
    exact ⟨r'', hl'', hpc'', horig''.trans horig'⟩

/-- Witness for C8: a record for "god" upgraded to displayForm "God" survives a
later lowercase sighting and a later non-capitalized merge unchanged. -/
theorem preserveCaps_latch_witness :
    ∃ r', List.lookup ['g','o','d']
        (applySteps [(['g','o','d'], ⟨['G','o','d'], true, 3⟩)]
          [VocabStep.sight 0 ['g','o','d'],
           VocabStep.merge (['g','o','d'], ⟨['g','o','d'], false, 5⟩)]) = some r' ∧
      r'.preserve_caps = true ∧ r'.original = (⟨['G','o','d'], true, 3⟩ : WordRecord).original :=
  preserveCaps_latch
    [VocabStep.sight 0 ['g','o','d'],
     VocabStep.merge (['g','o','d'], ⟨['g','o','d'], false, 5⟩)]
    [(['g','o','d'], ⟨['G','o','d'], true, 3⟩)]
    ['g','o','d'] ⟨['G','o','d'], true, 3⟩ (by decide) (by decide)

/- ## C9: the displayForm/canonicalForm invariant -/

/-- The invariant of one stored record: the displayForm lowercases to the key,
and a record without preserveCaps stores exactly the lowercase key. -/
def InvEntry (e : Str × WordRecord) : Prop :=
  pyLower e.2.original = e.1 ∧ (e.2.preserve_caps = false → e.2.original = e.1)

/-- Every record of the vocabulary satisfies `InvEntry`. -/
def InvVocab (v : Vocab) : Prop := ∀ e ∈ v, InvEntry e

theorem invVocab_addSighting (v : Vocab) (iw : Nat × Str) (hv : InvVocab v) :
    InvVocab (addSighting v iw) := by
  unfold addSighting
  cases hlk : List.lookup (pyLower iw.2) v with
  | none =>
    simp only [hlk]
    intro e he
    rcases List.mem_append.mp he with h1 | h2
    · exact hv e h1
    · simp only [List.mem_singleton] at h2
      subst h2
      by_cases hpc : preserveCapsOf iw.2 iw.1 = true
      · exact ⟨by simp [hpc], by simp [hpc]⟩
      · refine ⟨?_, fun _ => by simp [hpc]⟩
        simp only [hpc, Bool.false_eq_true, ite_false]
        exact pyLower_idem iw.2
  | some r0 =>
    simp only [hlk]
    intro e he
    obtain ⟨e0, he0, heq⟩ := List.mem_map.mp he
    by_cases hkey : e0.1 = pyLower iw.2
    · rw [if_pos hkey] at heq
      subst heq
      obtain ⟨hinv1, hinv2⟩ := hv e0 he0
      constructor
      · show pyLower (if preserveCapsOf iw.2 iw.1 && !e0.2.preserve_caps then iw.2
          else e0.2.original) = e0.1
        by_cases hcond : (preserveCapsOf iw.2 iw.1 && !e0.2.preserve_caps) = true
        · rw [if_pos hcond, hkey]
        · rw [if_neg hcond]
          exact hinv1
      · show (e0.2.preserve_caps || preserveCapsOf iw.2 iw.1) = false →
          (if preserveCapsOf iw.2 iw.1 && !e0.2.preserve_caps then iw.2
            else e0.2.original) = e0.1
        intro hfalse
        have h1 : e0.2.preserve_caps = false := by
          cases h : e0.2.preserve_caps
          · rfl
          · rw [h] at hfalse; simp at hfalse
        have h2 : preserveCapsOf iw.2 iw.1 = false := by
          cases h : preserveCapsOf iw.2 iw.1
          · rfl
          · rw [h, h1] at hfalse; simp at hfalse
        rw [h2]
        simp only [Bool.false_and, Bool.false_eq_true, ite_false]
        exact hinv2 h1
    · rw [if_neg hkey] at heq
      subst heq
      exact hv e0 he0

theorem invVocab_mergeEntry (acc : Vocab) (e : Str × WordRecord)
    (hacc : InvVocab acc) (he : InvEntry e) : InvVocab (mergeEntry acc e) := by
  unfold mergeEntry
  cases hlk : List.lookup e.1 acc with
  | none =>
    simp only [hlk]
    intro x hx
    rcases List.mem_append.mp hx with h1 | h2
    · exact hacc x h1
    · simp only [List.mem_singleton] at h2
      subst h2
      exact he
  | some r0 =>
    simp only [hlk]
    intro x hx
    obtain ⟨a, ha, heq⟩ := List.mem_map.mp hx
    by_cases hkey : a.1 = e.1
    · rw [if_pos hkey] at heq
      subst heq
      obtain ⟨ha1, ha2⟩ := hacc a ha
      obtain ⟨he1, he2⟩ := he
      constructor
      · dsimp only
        by_cases hcond : e.2.preserve_caps && !a.2.preserve_caps
        · rw [if_pos hcond, hkey]
          exact he1
        · rw [if_neg hcond]
          exact ha1
      · dsimp only
        intro hfalse
        have h1 : a.2.preserve_caps = false := by
          cases h : a.2.preserve_caps
          · rfl
          · rw [h] at hfalse; simp at hfalse
        have h2 : e.2.preserve_caps = false := by
          cases h : e.2.preserve_caps
          · rfl
          · rw [h, h1] at hfalse; simp at hfalse
        rw [h2]
        simp only [Bool.false_and, if_neg, Bool.false_eq_true, ite_false]
        exact ha2 h1
    · rw [if_neg hkey] at heq
      subst heq
      exact hacc a ha

theorem invVocab_mergeVocabs (v : Vocab) :
    ∀ acc, InvVocab acc → InvVocab v → InvVocab (mergeVocabs acc v) := by
  induction v with
  | nil => intro acc hacc _; exact hacc
  | cons e t ih =>
    intro acc hacc hv
    have he : InvEntry e := hv e (List.mem_cons_self e t)
    have ht : InvVocab t := fun x hx => hv x (List.mem_cons_of_mem e hx)
    exact ih (mergeEntry acc e) (invVocab_mergeEntry acc e hacc he) ht

theorem invVocab_foldl_sightings (ws : List (Nat × Str)) :
    ∀ v : Vocab, InvVocab v → InvVocab (ws.foldl addSighting v) := by
  induction ws with
  | nil => exact fun _ hv => hv
  | cons iw tw ihw => exact fun v hv => ihw _ (invVocab_addSighting v iw hv)

theorem invVocab_extract (content : Str) :
    InvVocab (extract_vocabulary_from_usfm content) := by
  unfold extract_vocabulary_from_usfm
  generalize splitSentences (stripTags content) = sentences
  have hgen : ∀ (ss : List Str) (v : Vocab), InvVocab v →
      InvVocab (ss.foldl (fun v s => ((findWords (pyStrip s)).enum).foldl addSighting v) v) := by
    intro ss
    induction ss with
    | nil => exact fun _ hv => hv
    | cons s t ih =>
      exact fun v hv => ih _ (invVocab_foldl_sightings _ v hv)
  exact hgen sentences [] (fun e he => absurd he (List.not_mem_nil e))

instance (e : Str × WordRecord) : Decidable (InvEntry e) := by
  unfold InvEntry
  infer_instance

instance (v : Vocab) : Decidable (InvVocab v) := by
  unfold InvVocab
  exact List.decidableBAll _ v

/-- C9: every record produced by extraction satisfies
`lowercase displayForm = canonicalForm`, with `displayForm = canonicalForm`
exactly when preserveCaps is false; and each extraction step and each merge
step preserves this invariant. -/
theorem vocab_displayForm_invariant :
    (∀ content, InvVocab (extract_vocabulary_from_usfm content)) ∧
    (∀ v iw, InvVocab v → InvVocab (addSighting v iw)) ∧
    (∀ acc e, InvVocab acc → InvEntry e → InvVocab (mergeEntry acc e)) ∧
    (∀ acc v, InvVocab acc → InvVocab v → InvVocab (mergeVocabs acc v)) :=
  ⟨invVocab_extract, invVocab_addSighting, invVocab_mergeEntry,
   fun acc v hacc hv => invVocab_mergeVocabs v acc hacc hv⟩

/-- Witness for C9: one concrete sighting step and one concrete merge step,
with the hypotheses checked by evaluation. -/
theorem vocab_displayForm_invariant_witness :
    InvVocab (addSighting [(['t','h','e'], ⟨['t','h','e'], false, 1⟩)] (2, ['G','o','d'])) ∧
    InvVocab (mergeEntry [(['t','h','e'], ⟨['t','h','e'], false, 1⟩)]
      (['g','o','d'], ⟨['G','o','d'], true, 4⟩)) :=
  ⟨vocab_displayForm_invariant.2.1 [(['t','h','e'], ⟨['t','h','e'], false, 1⟩)]
     (2, ['G','o','d']) (by decide),
   vocab_displayForm_invariant.2.2.1 [(['t','h','e'], ⟨['t','h','e'], false, 1⟩)]
     (['g','o','d'], ⟨['G','o','d'], true, 4⟩) (by decide) (by decide)⟩

/- ## Document rewriting (`transform_usfm_content`) -/

/-- The preserveCaps branch of `replace_word`: `replacement.capitalize()` when
the stored displayForm starts uppercase, then `replacement.upper()` when the
whole stored displayForm is uppercase (two sequential ifs in the source). -/
def applyStoredCase (original repl : Str) : Str :=
  if pyIsUpper original then
    pyUpper (if headIsUpper original then pyCapitalize repl else repl)
  else if headIsUpper original then pyCapitalize repl
  else repl

/-- The `elif` fallback of `replace_word`, applying the occurrence's own
casing: capitalize when the occurrence starts uppercase, otherwise uppercase
when the occurrence is fully uppercase. -/
def applyOccurrenceCase (word repl : Str) : Str :=
  if headIsUpper word then pyCapitalize repl
  else if pyIsUpper word then pyUpper repl
  else repl

/-- The `re.finditer(r'\\id\s+', preceding_text)` scan: returns the start and
end position of the last match (the end lies after the greedy whitespace run,
which may include newlines).  `p` is the absolute position of the current
suffix. -/
def lastIdMatch : Nat → Str → Option (Nat × Nat) → Option (Nat × Nat)
  | _, [], acc => acc
  | p, '\\' :: 'i' :: 'd' :: c :: rest, acc =>
    if isPySpace c then
      lastIdMatch (p + 4 + (rest.takeWhile isPySpace).length) (rest.dropWhile isPySpace)
        (some (p, p + 4 + (rest.takeWhile isPySpace).length))
    else
      lastIdMatch (p + 1) ('i' :: 'd' :: c :: rest) acc
  | p, _ :: rest, acc => lastIdMatch (p + 1) rest acc
termination_by _ l _ => l.length
decreasing_by
  · have h1 := dropWhile_length_le isPySpace rest
    simp only [List.length_cons]
    omega
  · simp only [List.length_cons]
    omega
  · simp only [List.length_cons]
    omega

/-- The identifier-line guard of `replace_word`: a word is protected when the
prefix before it contains a `\id` tag match with no newline after the match
end. -/
def idProtected (content : Str) (start_pos : Nat) : Bool :=
  match lastIdMatch 0 (content.take start_pos) none with
  | some (_, e) => decide ('\n' ∉ (content.take start_pos).drop e)
  | none => false

/-- `replace_word(match)`: `content` is the whole original document,
`start_pos` the match position, `word` the matched run. -/
def replace_word (content : Str) (lexicon : List (Str × Str)) (vocabulary : Vocab)
    (start_pos : Nat) (word : Str) : Str :=
  if idProtected content start_pos then word
  else
    match List.lookup (pyLower word) lexicon with
    | none => word
    | some repl =>
      match List.lookup (pyLower word) vocabulary with
      | some r =>
        if r.preserve_caps then applyStoredCase r.original repl
        else applyOccurrenceCase word repl
      | none => applyOccurrenceCase word repl

/-- The `\b` test before a letter run at position `p`: start of string, or a
preceding non-word character. -/
def boundaryBefore (content : Str) (p : Nat) : Bool :=
  if p = 0 then true
  else
    match content[p - 1]? with
    | some d => !isWordChar d
    | none => true

/-- The negative lookbehind `(?<!\\[a-zA-Z])` at position `p`: true when the
two preceding characters are a backslash followed by a letter (the match is
then vetoed). -/
def lookbehindVeto (content : Str) (p : Nat) : Bool :=
  if p < 2 then false
  else
    match content[p - 2]?, content[p - 1]? with
    | some b, some l => b = '\\' && l.isAlpha
    | _, _ => false

/-- The word-replacement pass
`re.sub(r'(?<!\\[a-zA-Z])\b[a-zA-Z]+\b', replace_word, content)`:
scan for maximal letter runs; a run is handed to `replace_word` when `\b`
holds on both sides and the lookbehind does not veto it. -/
def wordPass (content : Str) (lexicon : List (Str × Str)) (vocabulary : Vocab) :
    Nat → Str → Str
  | _, [] => []
  | p, c :: rest =>
    if c.isAlpha then
      (if boundaryBefore content p
          && (match rest.dropWhile Char.isAlpha with
              | [] => true
              | d :: _ => !isWordChar d)
          && !lookbehindVeto content p then
        replace_word content lexicon vocabulary p (c :: rest.takeWhile Char.isAlpha)
      else
        c :: rest.takeWhile Char.isAlpha)
      ++ wordPass content lexicon vocabulary (p + 1 + (rest.takeWhile Char.isAlpha).length)
          (rest.dropWhile Char.isAlpha)
    else
      c :: wordPass content lexicon vocabulary (p + 1) rest
termination_by _ l => l.length
decreasing_by
  · have h1 := dropWhile_length_le Char.isAlpha rest
    simp only [List.length_cons]
    omega
  · simp only [List.length_cons]
    omega

/-- The identifier-line truncation
`re.sub(r'\\id\s+([A-Z0-9]+).*', r'\\id \1', result)`: the greedy whitespace
(possibly spanning newlines), the `[A-Z0-9]+` code, and the rest of the line
are replaced by one space and the code. -/
def truncId : Str → Str
  | [] => []
  | '\\' :: 'i' :: 'd' :: rest =>
    if (rest.takeWhile isPySpace).isEmpty then '\\' :: truncId ('i' :: 'd' :: rest)
    else
      if ((rest.dropWhile isPySpace).takeWhile isUpperDigit).isEmpty then
        '\\' :: truncId ('i' :: 'd' :: rest)
      else
        '\\' :: 'i' :: 'd' :: ' ' :: ((rest.dropWhile isPySpace).takeWhile isUpperDigit)
          ++ truncId (((rest.dropWhile isPySpace).dropWhile isUpperDigit).dropWhile
              (fun c => c != '\n'))
  | c :: rest => c :: truncId rest
termination_by l => l.length
decreasing_by
  · simp only [List.length_cons]
    omega
  · simp only [List.length_cons]
    omega
  · have h1 := dropWhile_length_le isPySpace rest
    have h2 := dropWhile_length_le isUpperDigit (rest.dropWhile isPySpace)
    have h3 := dropWhile_length_le (fun c => c != '\n')
      ((rest.dropWhile isPySpace).dropWhile isUpperDigit)
    simp only [List.length_cons]
    omega
  · simp only [List.length_cons]
    omega

/-- One global substitution of a two-character pattern `q` by "first char,
space, second char", with re.sub's leftmost non-overlapping semantics. -/
def insertSpaceBetween (q : Char → Char → Bool) : Str → Str
  | c1 :: c2 :: r =>
    if q c1 c2 then c1 :: ' ' :: c2 :: insertSpaceBetween q r
    else c1 :: insertSpaceBetween q (c2 :: r)
  | l => l

/-- `re.sub(r'(\w)([.!?;:,])', r'\1 \2', ...)`. -/
def pairWP (a b : Char) : Bool := isWordChar a && isFixPunct b

/-- `re.sub(r'([.!?;:,])(\w)', r'\1 \2', ...)`. -/
def pairPW (a b : Char) : Bool := isFixPunct a && isWordChar b

/-- `re.sub(r'"(\w)', r'" \1', ...)`. -/
def pairQW (a b : Char) : Bool := a = '"' && isWordChar b

/-- `re.sub(r'(\w)\\', r'\1 \\', ...)`. -/
def pairWB (a b : Char) : Bool := isWordChar a && b = '\\'

/-- The four spacing fix-ups, in source order. -/
def spacingFixups (l : Str) : Str :=
  insertSpaceBetween pairWB (insertSpaceBetween pairQW
    (insertSpaceBetween pairPW (insertSpaceBetween pairWP l)))

/-- The post-processing passes of `transform_usfm_content`: identifier-line
truncation followed by the four spacing fix-ups. -/
def postFix (l : Str) : Str := spacingFixups (truncId l)

/-- `transform_usfm_content(content, lexicon, vocabulary)`. -/
def transform_usfm_content (content : Str) (lexicon : List (Str × Str))
    (vocabulary : Vocab) : Str :=
  postFix (wordPass content lexicon vocabulary 0 content)

/- ## C3: the lookbehind is dead, tag names are replaced -/

/-- Wherever the negative lookbehind `(?<!\\[a-zA-Z])` would veto a match, the
`\b` word-boundary test already fails: the character before the match would
have to be a letter, which is a word character.  The lookbehind therefore
never excludes anything, and in particular does not protect tag names. -/
theorem lookbehindVeto_implies_no_boundary (content : Str) (p : Nat)
    (h : lookbehindVeto content p = true) : boundaryBefore content p = false := by
  unfold lookbehindVeto at h
  by_cases hp : p < 2
  · rw [if_pos hp] at h
    exact absurd h (by simp)
  · rw [if_neg hp] at h
    unfold boundaryBefore
    rw [if_neg (by omega)]
    cases hb : content[p - 2]? with
    | none => rw [hb] at h; exact absurd h (by simp)
    | some b =>
      cases hl : content[p - 1]? with
      | none => rw [hb, hl] at h; exact absurd h (by simp)
      | some l =>
        rw [hb, hl] at h
        simp only [Bool.and_eq_true, decide_eq_true_eq] at h
        simp only [isWordChar, h.2, Bool.true_or, Bool.not_true]

/-- C3 fails on the code: in the document `\he x`, the maximal letter run
`he` is immediately preceded by the escape character `\`, yet once "he" is in
the lexicon the run is replaced, because the dead lookbehind never fires
(`lookbehindVeto_implies_no_boundary`).  The tag `\he` becomes `\zzzz`. -/
theorem tag_name_replaced_despite_guard :
    transform_usfm_content ['\\','h','e',' ','x'] [(['h','e'], ['z','z','z','z'])] []
      = ['\\','z','z','z','z',' ','x'] := by
  simp [transform_usfm_content, postFix, spacingFixups, wordPass, truncId,
    insertSpaceBetween, replace_word, idProtected, lastIdMatch, pyLower,
    applyOccurrenceCase, headIsUpper, pyCapitalize, List.lookup, boundaryBefore,
    lookbehindVeto, isWordChar, pyIsUpper, pairWP, pairPW, pairQW, pairWB,
    isFixPunct, isPySpace, isUpperDigit]

/- ## C4: capitalization of replacements -/

theorem toUpper_toUpper (c : Char) : Char.toUpper (Char.toUpper c) = Char.toUpper c := by
  simp only [Char.toUpper]
  by_cases h : c.toNat ≥ 97 ∧ c.toNat ≤ 122
  · rw [if_pos h]
    have h2 : (Char.ofNat (c.toNat - 32)).toNat = c.toNat - 32 :=
      char_toNat_ofNat _ (by omega)
    rw [if_neg (by omega)]
  · rw [if_neg h, if_neg h]

theorem toUpper_toLower (c : Char) : Char.toUpper (Char.toLower c) = Char.toUpper c := by
  simp only [Char.toLower, Char.toUpper]
  by_cases h : c.toNat ≥ 65 ∧ c.toNat ≤ 90
  · rw [if_pos h]
    have h2 : (Char.ofNat (c.toNat + 32)).toNat = c.toNat + 32 :=
      char_toNat_ofNat _ (by omega)
    rw [if_pos (by omega), if_neg (by omega), h2]
    have h3 : c.toNat + 32 - 32 = c.toNat := by omega
    rw [h3]
    exact Char.ofNat_toNat c
  · rw [if_neg h]

/-- Uppercasing absorbs a preceding capitalize. -/
theorem pyUpper_pyCapitalize (s : Str) : pyUpper (pyCapitalize s) = pyUpper s := by
  cases s with
  | nil => rfl
  | cons c cs =>
    simp only [pyCapitalize, pyUpper, List.map_cons, List.map_map]
    rw [toUpper_toUpper]
    congr 1
    apply List.map_congr_left
    intro a _
    exact toUpper_toLower a

/-- C4 (amended): when the vocabulary marks the form preserveCaps, the token's
casing follows the stored displayForm (fully uppercased when the displayForm is
all-uppercase, else capitalized when it starts uppercase), ignoring the
occurrence; otherwise the occurrence's own casing applies through the source's
`elif` chain — the token is capitalized whenever the occurrence starts with an
uppercase letter (an all-uppercase occurrence therefore gets only
capitalization), and only an occurrence that does not start uppercase yet
satisfies `isupper()` is fully uppercased. -/
theorem replace_word_casing (content : Str) (lexicon : List (Str × Str))
    (vocabulary : Vocab) (p : Nat) (word repl : Str)
    (hprot : idProtected content p = false)
    (hlex : List.lookup (pyLower word) lexicon = some repl) :
    (∀ r, List.lookup (pyLower word) vocabulary = some r → r.preserve_caps = true →
       (pyIsUpper r.original = true →
          replace_word content lexicon vocabulary p word = pyUpper repl) ∧
       (pyIsUpper r.original = false → headIsUpper r.original = true →
          replace_word content lexicon vocabulary p word = pyCapitalize repl) ∧
       (pyIsUpper r.original = false → headIsUpper r.original = false →
          replace_word content lexicon vocabulary p word = repl)) ∧
    ((List.lookup (pyLower word) vocabulary = none ∨
        ∃ r, List.lookup (pyLower word) vocabulary = some r ∧ r.preserve_caps = false) →
       (headIsUpper word = true →
          replace_word content lexicon vocabulary p word = pyCapitalize repl) ∧
       (headIsUpper word = false → pyIsUpper word = true →
          replace_word content lexicon vocabulary p word = pyUpper repl) ∧
       (headIsUpper word = false → pyIsUpper word = false →
          replace_word content lexicon vocabulary p word = repl)) := by
  have hbase : replace_word content lexicon vocabulary p word =
      (match List.lookup (pyLower word) vocabulary with
       | some r =>
         if r.preserve_caps then applyStoredCase r.original repl
         else applyOccurrenceCase word repl
       | none => applyOccurrenceCase word repl) := by
    unfold replace_word
    rw [hprot]
    simp only [Bool.false_eq_true, if_false, hlex]
  constructor
  · intro r hr hpc
    rw [hbase, hr]
    simp only [hpc, if_true]
    unfold applyStoredCase
    refine ⟨?_, ?_, ?_⟩
    · intro h1
      rw [if_pos h1]
      by_cases hh : headIsUpper r.original = true
      · rw [if_pos hh, pyUpper_pyCapitalize]
      · rw [if_neg hh]
    · intro h1 h2
      rw [if_neg (by rw [h1]; exact Bool.false_ne_true), if_pos h2]
    · intro h1 h2
      rw [if_neg (by rw [h1]; exact Bool.false_ne_true),
        if_neg (by rw [h2]; exact Bool.false_ne_true)]
  · intro hcase
    have hocc : replace_word content lexicon vocabulary p word
        = applyOccurrenceCase word repl := by
      rcases hcase with hnone | ⟨r, hr, hpc⟩
      · rw [hbase, hnone]
      · rw [hbase, hr]
        simp only [hpc, Bool.false_eq_true, if_false]
    rw [hocc]
    unfold applyOccurrenceCase
    refine ⟨?_, ?_, ?_⟩
    · intro h1
      rw [if_pos h1]
    · intro h1 h2
      rw [if_neg (by rw [h1]; exact Bool.false_ne_true), if_pos h2]
    · intro h1 h2
      rw [if_neg (by rw [h1]; exact Bool.false_ne_true),
        if_neg (by rw [h2]; exact Bool.false_ne_true)]

/-- Witness for C4 (amended): the occurrence "GOD" of a preserveCaps entry with
displayForm "God" is rewritten to the capitalized token, ignoring its own
all-caps casing. -/
theorem replace_word_casing_witness :
    replace_word ['G','O','D'] [(['g','o','d'], ['a','b','c','d'])]
      [(['g','o','d'], ⟨['G','o','d'], true, 1⟩)] 0 ['G','O','D']
      = ['A','b','c','d'] := by
  have h := ((replace_word_casing ['G','O','D'] [(['g','o','d'], ['a','b','c','d'])]
      [(['g','o','d'], ⟨['G','o','d'], true, 1⟩)] 0 ['G','O','D'] ['a','b','c','d']
      (by simp [idProtected, lastIdMatch]) (by decide)).1 ⟨['G','o','d'], true, 1⟩
      (by decide) rfl).2.1 (by decide) (by decide)
  rw [h]
  decide

/-- C4 counterexample: an entirely-uppercase occurrence "GO" of a
non-preserveCaps entry is only capitalized ("Abcd"), not fully uppercased as
the claim states: the `elif word[0].isupper()` branch fires first. -/
theorem replace_word_allcaps_occurrence_only_capitalized :
    replace_word ['G','O'] [(['g','o'], ['a','b','c','d'])]
      [(['g','o'], ⟨['g','o'], false, 1⟩)] 0 ['G','O'] = ['A','b','c','d'] ∧
    pyIsUpper ['G','O'] = true ∧
    ['A','b','c','d'] ≠ pyUpper ['a','b','c','d'] := by
  refine ⟨?_, by decide, by decide⟩
  simp [replace_word, idProtected, lastIdMatch, pyLower, applyOccurrenceCase,
    headIsUpper, pyCapitalize, List.lookup]

/- ## C5: identifier-line protection and truncation -/

theorem lastIdMatch_ge :
    ∀ (n : Nat) (l : Str), l.length ≤ n → ∀ (p : Nat) (acc : Option (Nat × Nat)),
      (∀ s e, acc = some (s, e) → s + 4 ≤ e) →
      ∀ s e, lastIdMatch p l acc = some (s, e) → s + 4 ≤ e := by
  intro n
  induction n with
  | zero =>
    intro l hl p acc hacc s e h
    have hnil : l = [] := List.eq_nil_of_length_eq_zero (Nat.le_zero.mp hl)
    subst hnil
    simp only [lastIdMatch] at h
    exact hacc s e h
  | succ n ih =>
    intro l hl p acc hacc s e h
    rw [lastIdMatch.eq_def] at h
    split at h
    · exact hacc s e h
    · rename_i c rest
      simp only [List.length_cons] at hl
      split at h
      · refine ih _ ?_ _ _ ?_ s e h
        · have := dropWhile_length_le isPySpace rest
          omega
        · intro s' e' hse
          simp only [Option.some.injEq, Prod.mk.injEq] at hse
          omega
      · exact ih _ (by simp only [List.length_cons]; omega) _ _ hacc s e h
    · rename_i head rest hx
      simp only [List.length_cons] at hl
      exact ih _ (by omega) _ _ hacc s e h

/-- C5: every word occurrence lying after the most recent `\id` tag with no
line break between the tag and the occurrence is left unchanged by the
word-replacement pass; and the example line `\id GEN Genesis book` is
afterwards truncated to `\id GEN`, with the copy of "book" on the second line
tokenized but neither "Genesis" nor "book" on the identifier line touched. -/
theorem id_line_protected_and_truncated :
    (∀ (content : Str) (lexicon : List (Str × Str)) (vocabulary : Vocab)
       (p : Nat) (word : Str) (s e : Nat),
       lastIdMatch 0 (content.take p) none = some (s, e) →
       '\n' ∉ (content.take p).drop (s + 3) →
       replace_word content lexicon vocabulary p word = word) ∧
    transform_usfm_content
      ['\\','i','d',' ','G','E','N',' ','G','e','n','e','s','i','s',' ',
       'b','o','o','k','\n','b','o','o','k']
      [(['g','e','n','e','s','i','s'], ['a','a','a','a']),
       (['b','o','o','k'], ['b','b','b','b']),
       (['g','e','n'], ['c','c','c','c'])] []
      = ['\\','i','d',' ','G','E','N','\n','b','b','b','b'] := by
  constructor
  · intro content lexicon vocabulary p word s e h1 h2
    have hprot : idProtected content p = true := by
      unfold idProtected
      rw [h1]
      rw [decide_eq_true_eq]
      intro hmem
      apply h2
      have hse : s + 4 ≤ e :=
        lastIdMatch_ge (content.take p).length (content.take p) le_rfl 0 none
          (by simp) s e h1
      have hdd : (content.take p).drop e
          = ((content.take p).drop (s + 3)).drop (e - (s + 3)) := by
        rw [List.drop_drop]
        congr 1
        omega
      rw [hdd] at hmem
      exact List.drop_subset _ _ hmem
    unfold replace_word
    rw [hprot]
    simp
  · simp [transform_usfm_content, postFix, spacingFixups, wordPass, truncId,
      insertSpaceBetween, replace_word, idProtected, lastIdMatch, pyLower,
      applyOccurrenceCase, headIsUpper, pyCapitalize, List.lookup, boundaryBefore,
      lookbehindVeto, isWordChar, pyIsUpper, pairWP, pairPW, pairQW, pairWB,
      isFixPunct, isPySpace, isUpperDigit]

/-- Witness for C5: the word "x" on the identifier line of `\id GEN x` is left
unchanged even though "x" is in the lexicon. -/
theorem id_line_protected_witness :
    replace_word ['\\','i','d',' ','G','E','N',' ','x']
      [(['x'], ['q','q','q','q'])] [] 8 ['x'] = ['x'] :=
  id_line_protected_and_truncated.1 ['\\','i','d',' ','G','E','N',' ','x']
    [(['x'], ['q','q','q','q'])] [] 8 ['x'] 0 4
    (by simp [lastIdMatch, isPySpace])
    (by decide)

/- ## C10: the spacing fix-ups only insert spaces -/

/-- `SpacedOf s t`: `t` is `s` with zero or more space characters inserted
(every character of `s` appears, unchanged and in order). -/
inductive SpacedOf : Str → Str → Prop
  | nil : SpacedOf [] []
  | cons (c : Char) {s t : Str} : SpacedOf s t → SpacedOf (c :: s) (c :: t)
  | space {s t : Str} : SpacedOf s t → SpacedOf s (' ' :: t)

theorem SpacedOf.refl : ∀ s : Str, SpacedOf s s
  | [] => .nil
  | c :: t => .cons c (SpacedOf.refl t)

theorem SpacedOf.trans {a b c : Str} (h1 : SpacedOf a b) (h2 : SpacedOf b c) :
    SpacedOf a c := by
  induction h2 generalizing a with
  | nil => exact h1
  | cons c' h2' ih =>
    cases h1 with
    | cons _ h1' => exact .cons c' (ih h1')
    | space h1' => exact .space (ih h1')
  | space h2' ih => exact .space (ih h1)

theorem SpacedOf.sublist {s t : Str} (h : SpacedOf s t) : s.Sublist t := by
  induction h with
  | nil => exact List.Sublist.refl []
  | cons c _ ih => exact ih.cons₂ c
  | space _ ih => exact ih.cons ' '

theorem SpacedOf.count_eq {s t : Str} (h : SpacedOf s t) {c : Char} (hc : c ≠ ' ') :
    t.count c = s.count c := by
  induction h with
  | nil => rfl
  | cons c' _ ih => simp only [List.count_cons, ih]
  | space _ ih =>
    simp only [List.count_cons, ih]
    have : (' ' == c) = false := beq_eq_false_iff_ne.mpr (fun hk => hc hk.symm)
    rw [this]
    simp

theorem insertSpaceBetween_spacedOf (q : Char → Char → Bool) :
    ∀ (n : Nat) (l : Str), l.length ≤ n → SpacedOf l (insertSpaceBetween q l) := by
  intro n
  induction n with
  | zero =>
    intro l hl
    have hnil : l = [] := List.eq_nil_of_length_eq_zero (Nat.le_zero.mp hl)
    subst hnil
    exact .nil
  | succ n ih =>
    intro l hl
    match l with
    | [] => exact .nil
    | [c] => exact .cons c .nil
    | c1 :: c2 :: r =>
      simp only [List.length_cons] at hl
      show SpacedOf (c1 :: c2 :: r)
        (if q c1 c2 then c1 :: ' ' :: c2 :: insertSpaceBetween q r
         else c1 :: insertSpaceBetween q (c2 :: r))
      by_cases hq : q c1 c2 = true
      · rw [if_pos hq]
        exact .cons c1 (.space (.cons c2 (ih r (by omega))))
      · rw [if_neg hq]
        exact .cons c1 (ih (c2 :: r) (by simp only [List.length_cons]; omega))

/-- C10: the four spacing fix-ups only insert single space characters: the
input is a sublist of the output (every input character, including every
newline, appears unchanged and in order), the inserted characters are spaces,
and the newline count is unchanged. -/
theorem spacingFixups_only_inserts_spaces (l : Str) :
    SpacedOf l (spacingFixups l) ∧ l.Sublist (spacingFixups l) ∧
    (spacingFixups l).count '\n' = l.count '\n' := by
  have h1 : SpacedOf l (insertSpaceBetween pairWP l) :=
    insertSpaceBetween_spacedOf pairWP _ l le_rfl
  have h2 := insertSpaceBetween_spacedOf pairPW _ (insertSpaceBetween pairWP l) le_rfl
  have h3 := insertSpaceBetween_spacedOf pairQW _
    (insertSpaceBetween pairPW (insertSpaceBetween pairWP l)) le_rfl
  have h4 := insertSpaceBetween_spacedOf pairWB _
    (insertSpaceBetween pairQW (insertSpaceBetween pairPW (insertSpaceBetween pairWP l)))
    le_rfl
  have h : SpacedOf l (spacingFixups l) := ((h1.trans h2).trans h3).trans h4
  exact ⟨h, h.sublist, h.count_eq (by decide)⟩

/- ## C6: idempotence of the post-processing fix-ups -/

/-- No adjacent pair of the string matches the two-character pattern `q`. -/
def noPat (q : Char → Char → Bool) (l : Str) : Prop :=
  List.Chain' (fun a b => q a b = false) l

theorem insertSpaceBetween_head (q : Char → Char → Bool) (l : Str) :
    (insertSpaceBetween q l).head? = l.head? := by
  match l with
  | [] => rfl
  | [c] => rfl
  | c1 :: c2 :: r =>
    show (if q c1 c2 then c1 :: ' ' :: c2 :: insertSpaceBetween q r
          else c1 :: insertSpaceBetween q (c2 :: r)).head? = _
    by_cases hq : q c1 c2 = true
    · rw [if_pos hq]
      rfl
    · rw [if_neg hq]
      rfl

/-- A string with no occurrence of the pattern is a fixed point of the
substitution. -/
theorem insertSpaceBetween_fixed (q : Char → Char → Bool) :
    ∀ (n : Nat) (l : Str), l.length ≤ n → noPat q l → insertSpaceBetween q l = l := by
  intro n
  induction n with
  | zero =>
    intro l hl _
    have hnil : l = [] := List.eq_nil_of_length_eq_zero (Nat.le_zero.mp hl)
    subst hnil
    rfl
  | succ n ih =>
    intro l hl hnp
    match l with
    | [] => rfl
    | [c] => rfl
    | c1 :: c2 :: r =>
      simp only [List.length_cons] at hl
      have hq : q c1 c2 = false := (List.chain'_cons.mp hnp).1
      show (if q c1 c2 then c1 :: ' ' :: c2 :: insertSpaceBetween q r
            else c1 :: insertSpaceBetween q (c2 :: r)) = c1 :: c2 :: r
      rw [if_neg (by rw [hq]; exact Bool.false_ne_true)]
      rw [ih (c2 :: r) (by simp only [List.length_cons]; omega) (List.chain'_cons.mp hnp).2]

/-- After the substitution, the pattern no longer occurs, provided the pattern
never involves a space (`hsp1`, `hsp2`) and never chains (`h2`: the second
character of a match cannot start a match). -/
theorem insertSpaceBetween_noPat_self (q : Char → Char → Bool)
    (hsp1 : ∀ a, q a ' ' = false) (hsp2 : ∀ b, q ' ' b = false)
    (h2 : ∀ a b c, q a b = true → q b c = false) :
    ∀ (n : Nat) (l : Str), l.length ≤ n → noPat q (insertSpaceBetween q l) := by
  intro n
  induction n with
  | zero =>
    intro l hl
    have hnil : l = [] := List.eq_nil_of_length_eq_zero (Nat.le_zero.mp hl)
    subst hnil
    exact List.chain'_nil
  | succ n ih =>
    intro l hl
    match l with
    | [] => exact List.chain'_nil
    | [c] => exact List.chain'_singleton c
    | c1 :: c2 :: r =>
      simp only [List.length_cons] at hl
      show noPat q (if q c1 c2 then c1 :: ' ' :: c2 :: insertSpaceBetween q r
            else c1 :: insertSpaceBetween q (c2 :: r))
      by_cases hq : q c1 c2 = true
      · rw [if_pos hq]
        refine List.chain'_cons.mpr ⟨hsp1 c1, ?_⟩
        refine List.chain'_cons.mpr ⟨hsp2 c2, ?_⟩
        refine List.chain'_cons'.mpr ⟨?_, ih r (by omega)⟩
        intro y _
        exact h2 c1 c2 y hq
      · rw [if_neg hq]
        refine List.chain'_cons'.mpr ⟨?_, ih (c2 :: r) (by simp only [List.length_cons]; omega)⟩
        intro y hy
        rw [insertSpaceBetween_head, List.head?_cons, Option.mem_def,
          Option.some.injEq] at hy
        rw [← hy]
        simpa using hq

/-- A later substitution (over any pattern `q`) preserves the absence of an
earlier pattern `q'`, provided `q'` never involves a space. -/
theorem insertSpaceBetween_noPat_other (q q' : Char → Char → Bool)
    (hsp1 : ∀ a, q' a ' ' = false) (hsp2 : ∀ b, q' ' ' b = false) :
    ∀ (n : Nat) (l : Str), l.length ≤ n → noPat q' l →
      noPat q' (insertSpaceBetween q l) := by
  intro n
  induction n with
  | zero =>
    intro l hl _
    have hnil : l = [] := List.eq_nil_of_length_eq_zero (Nat.le_zero.mp hl)
    subst hnil
    exact List.chain'_nil
  | succ n ih =>
    intro l hl hnp
    match l with
    | [] => exact List.chain'_nil
    | [c] => exact List.chain'_singleton c
    | c1 :: c2 :: r =>
      simp only [List.length_cons] at hl
      obtain ⟨hq12, hnp2⟩ := List.chain'_cons.mp hnp
      show noPat q' (if q c1 c2 then c1 :: ' ' :: c2 :: insertSpaceBetween q r
            else c1 :: insertSpaceBetween q (c2 :: r))
      by_cases hq : q c1 c2 = true
      · rw [if_pos hq]
        refine List.chain'_cons.mpr ⟨hsp1 c1, ?_⟩
        refine List.chain'_cons.mpr ⟨hsp2 c2, ?_⟩
        refine List.chain'_cons'.mpr ⟨?_, ih r (by omega) hnp2.tail⟩
        intro y hy
        rw [insertSpaceBetween_head, Option.mem_def] at hy
        exact (List.chain'_cons'.mp hnp2).1 y hy
      · rw [if_neg hq]
        refine List.chain'_cons'.mpr
          ⟨?_, ih (c2 :: r) (by simp only [List.length_cons]; omega) hnp2⟩
        intro y hy
        rw [insertSpaceBetween_head, List.head?_cons, Option.mem_def,
          Option.some.injEq] at hy
        rw [← hy]
        exact hq12

/- ### takeWhile/dropWhile and character-class helpers -/

theorem takeWhile_append_of_all {p : Char → Bool} {x : Str} (y : Str)
    (h : ∀ c ∈ x, p c = true) : (x ++ y).takeWhile p = x ++ y.takeWhile p := by
  induction x with
  | nil => rfl
  | cons a t ih =>
    rw [List.cons_append, List.takeWhile_cons, if_pos (h a (List.mem_cons_self a t))]
    rw [ih (fun c hc => h c (List.mem_cons_of_mem a hc))]
    rfl

theorem dropWhile_append_of_all {p : Char → Bool} {x : Str} (y : Str)
    (h : ∀ c ∈ x, p c = true) : (x ++ y).dropWhile p = y.dropWhile p := by
  induction x with
  | nil => rfl
  | cons a t ih =>
    rw [List.cons_append, List.dropWhile_cons, if_pos (h a (List.mem_cons_self a t))]
    exact ih (fun c hc => h c (List.mem_cons_of_mem a hc))

theorem takeWhile_eq_nil_of_head {p : Char → Bool} {x : Str}
    (h : ∀ y, x.head? = some y → p y = false) : x.takeWhile p = [] := by
  cases x with
  | nil => rfl
  | cons a t =>
    rw [List.takeWhile_cons, if_neg]
    rw [h a rfl]
    exact Bool.false_ne_true

theorem dropWhile_eq_self_of_head {p : Char → Bool} {x : Str}
    (h : ∀ y, x.head? = some y → p y = false) : x.dropWhile p = x := by
  cases x with
  | nil => rfl
  | cons a t =>
    rw [List.dropWhile_cons, if_neg]
    rw [h a rfl]
    exact Bool.false_ne_true

theorem head_dropWhile_false (p : Char → Bool) :
    ∀ (l : Str) (y : Char), (l.dropWhile p).head? = some y → p y = false := by
  intro l
  induction l with
  | nil => intro y hy; exact absurd hy (by simp)
  | cons a t ih =>
    intro y hy
    rw [List.dropWhile_cons] at hy
    by_cases hp : p a = true
    · rw [if_pos hp] at hy
      exact ih y hy
    · rw [if_neg hp] at hy
      simp only [List.head?_cons, Option.some.injEq] at hy
      subst hy
      simpa using hp

theorem mem_takeWhile_true {p : Char → Bool} {x : Str} :
    ∀ c ∈ x.takeWhile p, p c = true := by
  induction x with
  | nil => intro c hc; exact absurd hc (by simp)
  | cons a t ih =>
    intro c hc
    rw [List.takeWhile_cons] at hc
    by_cases hp : p a = true
    · rw [if_pos hp] at hc
      rcases List.mem_cons.mp hc with rfl | hc'
      · exact hp
      · exact ih c hc'
    · rw [if_neg hp] at hc
      exact absurd hc (by simp)

theorem isPySpace_ne_bs {c : Char} (h : isPySpace c = true) : c ≠ '\\' := by
  intro heq
  subst heq
  exact absurd h (by decide)

theorem isUpperDigit_ne_bs {c : Char} (h : isUpperDigit c = true) : c ≠ '\\' := by
  intro heq
  subst heq
  exact absurd h (by decide)

theorem isUpperDigit_not_pySpace {c : Char} (h : isUpperDigit c = true) :
    isPySpace c = false := by
  cases hsp : isPySpace c
  · rfl
  · simp only [isPySpace, Bool.or_eq_true, decide_eq_true_eq] at hsp
    rcases hsp with ((((rfl | rfl) | rfl) | rfl) | rfl) | rfl <;>
      exact absurd h (by decide)

theorem pySpace_not_word {c : Char} (h : isPySpace c = true) : isWordChar c = false := by
  simp only [isPySpace, Bool.or_eq_true, decide_eq_true_eq] at h
  rcases h with ((((rfl | rfl) | rfl) | rfl) | rfl) | rfl <;> decide

theorem pySpace_not_punct {c : Char} (h : isPySpace c = true) : isFixPunct c = false := by
  simp only [isPySpace, Bool.or_eq_true, decide_eq_true_eq] at h
  rcases h with ((((rfl | rfl) | rfl) | rfl) | rfl) | rfl <;> decide

theorem pySpace_ne_quote {c : Char} (h : isPySpace c = true) : c ≠ '"' := by
  simp only [isPySpace, Bool.or_eq_true, decide_eq_true_eq] at h
  rcases h with ((((rfl | rfl) | rfl) | rfl) | rfl) | rfl <;> decide

theorem isUpperDigit_not_punct {c : Char} (h : isUpperDigit c = true) :
    isFixPunct c = false := by
  cases hp : isFixPunct c
  · rfl
  · simp only [isFixPunct, Bool.or_eq_true, decide_eq_true_eq] at hp
    rcases hp with ((((rfl | rfl) | rfl) | rfl) | rfl) | rfl <;>
      exact absurd h (by decide)

theorem isUpperDigit_ne_quote {c : Char} (h : isUpperDigit c = true) : c ≠ '"' := by
  intro heq
  subst heq
  exact absurd h (by decide)

theorem head_false_of_takeWhile_nil {p : Char → Bool} {x : Str}
    (h : x.takeWhile p = []) : ∀ y, x.head? = some y → p y = false := by
  cases x with
  | nil => intro y hy; exact absurd hy (by simp)
  | cons a t =>
    intro y hy
    simp only [List.head?_cons, Option.some.injEq] at hy
    rw [List.takeWhile_cons] at h
    by_cases hp : p a = true
    · rw [if_pos hp] at h
      exact absurd h (by simp)
    · rw [← hy]
      simpa using hp

/- ### The identifier-truncation fixpoint predicate -/

/-- The truncation-site body check: after an occurrence of `\id`, either the
whitespace run is empty (no match), or the `[A-Z0-9]+` code is empty (no
match), or the match exists but replacing it changes nothing (single space,
then the code, then end of line). -/
def siteCheckB (b : Str) : Bool :=
  (b.takeWhile isPySpace).isEmpty
  || ((b.dropWhile isPySpace).takeWhile isUpperDigit).isEmpty
  || (decide (b.takeWhile isPySpace = [' '])
      && !((b.dropWhile isPySpace).takeWhile isUpperDigit).isEmpty
      && (((b.dropWhile isPySpace).dropWhile isUpperDigit).takeWhile
            (fun c => c != '\n')).isEmpty)

/-- Check the truncation site opened by a backslash: nontrivial only when the
next two characters are `id`. -/
def siteOkB : Str → Bool
  | c1 :: c2 :: b => if c1 = 'i' ∧ c2 = 'd' then siteCheckB b else true
  | _ => true

/-- Every backslash in the string opens an acceptable truncation site:
`truncId` is then the identity (and conversely `truncId` always produces such
a string). -/
def idOkB : Str → Bool
  | [] => true
  | c :: rest => (if c = '\\' then siteOkB rest else true) && idOkB rest

theorem idOkB_cons_ne {c : Char} (rest : Str) (hc : c ≠ '\\') :
    idOkB (c :: rest) = idOkB rest := by
  simp [idOkB, hc]

theorem idOkB_cons_bs (rest : Str) :
    idOkB ('\\' :: rest) = (siteOkB rest && idOkB rest) := by
  simp [idOkB]

theorem idOkB_tail {c : Char} {rest : Str} (h : idOkB (c :: rest) = true) :
    idOkB rest = true := by
  unfold idOkB at h
  simp only [Bool.and_eq_true] at h
  exact h.2

theorem idOkB_append_no_bs {x : Str} (y : Str) (h : ∀ c ∈ x, c ≠ '\\') :
    idOkB (x ++ y) = idOkB y := by
  induction x with
  | nil => rfl
  | cons a t ih =>
    rw [List.cons_append, idOkB_cons_ne _ (h a (List.mem_cons_self a t))]
    exact ih (fun c hc => h c (List.mem_cons_of_mem a hc))

theorem idOkB_suffix {x y : Str} (h : idOkB (x ++ y) = true) : idOkB y = true := by
  induction x with
  | nil => exact h
  | cons a t ih =>
    rw [List.cons_append] at h
    exact ih (idOkB_tail h)

/- ### Unfolding equations for `truncId` -/

theorem truncId_nil : truncId [] = [] := by rw [truncId.eq_def]

theorem truncId_bsid (rest : Str) : truncId ('\\' :: 'i' :: 'd' :: rest) =
    if (rest.takeWhile isPySpace).isEmpty then '\\' :: truncId ('i' :: 'd' :: rest)
    else
      if ((rest.dropWhile isPySpace).takeWhile isUpperDigit).isEmpty then
        '\\' :: truncId ('i' :: 'd' :: rest)
      else
        '\\' :: 'i' :: 'd' :: ' ' :: ((rest.dropWhile isPySpace).takeWhile isUpperDigit)
          ++ truncId (((rest.dropWhile isPySpace).dropWhile isUpperDigit).dropWhile
              (fun c => c != '\n')) := by
  rw [truncId.eq_def]
  split
  · rename_i heq
    exact absurd heq (by simp)
  · rename_i rest' heq
    injection heq with h1 h2
    injection h2 with h3 h4
    injection h4 with h5 h6
    subst h6
    rfl
  · rename_i c' rest' hexcl heq
    injection heq with h1 h2
    exact absurd trivial (fun _ => hexcl rest h1.symm h2.symm)

theorem truncId_cons_ne (c : Char) (rest : Str) (hc : c ≠ '\\') :
    truncId (c :: rest) = c :: truncId rest := by
  rw [truncId.eq_def]
  split
  · rename_i heq
    exact absurd heq (by simp)
  · rename_i rest' heq
    injection heq with h1 h2
    exact absurd h1 hc
  · rename_i c' rest' hexcl heq
    injection heq with h1 h2
    subst h1
    subst h2
    rfl

theorem truncId_bs_notid (rest : Str) (h : ∀ b, rest ≠ 'i' :: 'd' :: b) :
    truncId ('\\' :: rest) = '\\' :: truncId rest := by
  rw [truncId.eq_def]
  split
  · rename_i heq
    exact absurd heq (by simp)
  · rename_i rest' heq
    injection heq with h1 h2
    exact absurd h2 (h rest')
  · rename_i c' rest' hexcl heq
    injection heq with h1 h2
    subst h1
    subst h2
    rfl

theorem truncId_head (l : Str) : (truncId l).head? = l.head? := by
  rw [truncId.eq_def]
  split
  · rfl
  · split
    · rfl
    · split
      · rfl
      · rfl
  · rfl

theorem truncId_append_no_bs {x : Str} (y : Str) (h : ∀ c ∈ x, c ≠ '\\') :
    truncId (x ++ y) = x ++ truncId y := by
  induction x with
  | nil => rfl
  | cons a t ih =>
    rw [List.cons_append, truncId_cons_ne a _ (h a (List.mem_cons_self a t)),
      ih (fun c hc => h c (List.mem_cons_of_mem a hc))]
    rfl

/-- Case split on whether a string starts with the two characters `id`. -/
theorem bs_shape (rest : Str) :
    (∃ b, rest = 'i' :: 'd' :: b) ∨ (∀ b, rest ≠ 'i' :: 'd' :: b) := by
  rcases rest with _ | ⟨c1, rest1⟩
  · right; intro b h; exact absurd h (by simp)
  · by_cases h1 : c1 = 'i'
    · subst h1
      rcases rest1 with _ | ⟨c2, rest2⟩
      · right; intro b h; exact absurd h (by simp)
      · by_cases h2 : c2 = 'd'
        · subst h2; exact Or.inl ⟨rest2, rfl⟩
        · right
          intro b h
          injection h with _ h'
          injection h' with h'' _
          exact h2 h''
    · right
      intro b h
      injection h with h' _
      exact h1 h'

theorem siteOkB_cons2 (c1 c2 : Char) (b : Str) :
    siteOkB (c1 :: c2 :: b) = if c1 = 'i' ∧ c2 = 'd' then siteCheckB b else true := rfl

theorem siteOkB_id (b : Str) : siteOkB ('i' :: 'd' :: b) = siteCheckB b := by
  rw [siteOkB_cons2, if_pos ⟨rfl, rfl⟩]

/-- `truncId` is the identity on strings whose every backslash opens an
acceptable site. -/
theorem truncId_fixed_of_idOkB :
    ∀ (n : Nat) (l : Str), l.length ≤ n → idOkB l = true → truncId l = l := by
  intro n
  induction n with
  | zero =>
    intro l hl _
    have hnil : l = [] := List.eq_nil_of_length_eq_zero (Nat.le_zero.mp hl)
    subst hnil
    exact truncId_nil
  | succ n ih =>
    intro l hl hok
    match l with
    | [] => exact truncId_nil
    | c :: rest =>
      simp only [List.length_cons] at hl
      by_cases hc : c = '\\'
      · subst hc
        rcases bs_shape rest with ⟨b, rfl⟩ | hno
        · have hsite : siteCheckB b = true := by
            rw [idOkB_cons_bs] at hok
            simp only [Bool.and_eq_true] at hok
            rw [← siteOkB_id]
            exact hok.1
          have hokb : idOkB b = true :=
            idOkB_tail (idOkB_tail (idOkB_tail hok))
          simp only [List.length_cons] at hl
          rw [truncId_bsid]
          by_cases hw : (b.takeWhile isPySpace).isEmpty = true
          · rw [if_pos hw, truncId_cons_ne 'i' _ (by decide),
              truncId_cons_ne 'd' _ (by decide), ih b (by omega) hokb]
          · rw [if_neg hw]
            by_cases hcd : ((b.dropWhile isPySpace).takeWhile isUpperDigit).isEmpty = true
            · rw [if_pos hcd, truncId_cons_ne 'i' _ (by decide),
                truncId_cons_ne 'd' _ (by decide), ih b (by omega) hokb]
            · rw [if_neg hcd]
              have h3 : b.takeWhile isPySpace = [' '] ∧
                  (((b.dropWhile isPySpace).dropWhile isUpperDigit).takeWhile
                    (fun c => c != '\n')) = [] := by
                unfold siteCheckB at hsite
                simp only [Bool.or_eq_true, Bool.and_eq_true, decide_eq_true_eq,
                  List.isEmpty_iff] at hsite
                rcases hsite with (h | h) | h
                · exact absurd h (by simpa [List.isEmpty_iff] using hw)
                · exact absurd h (by simpa [List.isEmpty_iff] using hcd)
                · exact ⟨h.1.1, h.2⟩
              obtain ⟨hsp1, hline⟩ := h3
              have hr3 : (((b.dropWhile isPySpace).dropWhile isUpperDigit).dropWhile
                  (fun c => c != '\n')) = (b.dropWhile isPySpace).dropWhile isUpperDigit :=
                dropWhile_eq_self_of_head (head_false_of_takeWhile_nil hline)
              rw [hr3]
              have hok2 : idOkB ((b.dropWhile isPySpace).dropWhile isUpperDigit) = true := by
                have hb2 : b = b.takeWhile isPySpace ++
                    ((b.dropWhile isPySpace).takeWhile isUpperDigit ++
                     (b.dropWhile isPySpace).dropWhile isUpperDigit) := by
                  rw [List.takeWhile_append_dropWhile,
                    List.takeWhile_append_dropWhile]
                rw [hb2] at hokb
                exact idOkB_suffix (idOkB_suffix hokb)
              have hlen2 : ((b.dropWhile isPySpace).dropWhile isUpperDigit).length ≤ n := by
                have d1 := dropWhile_length_le isPySpace b
                have d2 := dropWhile_length_le isUpperDigit (b.dropWhile isPySpace)
                omega
              rw [ih _ hlen2 hok2]
              have hb : b = ' ' :: ((b.dropWhile isPySpace).takeWhile isUpperDigit ++
                  (b.dropWhile isPySpace).dropWhile isUpperDigit) := by
                set d := b.dropWhile isPySpace with hd
                rw [List.takeWhile_append_dropWhile]
                have h0 := List.takeWhile_append_dropWhile (p := isPySpace) (l := b)
                rw [hsp1, ← hd] at h0
                rw [← h0]
                rfl
              conv_rhs => rw [hb]
              simp only [List.cons_append]
        · rw [truncId_bs_notid rest hno, ih rest (by omega) (idOkB_tail hok)]
      · rw [truncId_cons_ne c rest hc, ih rest (by omega) (idOkB_tail hok)]

theorem head_prop_truncId {P : Char → Prop} {x : Str}
    (h : ∀ y, x.head? = some y → P y) :
    ∀ y, (truncId x).head? = some y → P y :=
  fun y hy => h y (by rwa [truncId_head] at hy)

theorem siteOkB_of_head_ne_i {t : Str} (h : ∀ y, t.head? = some y → y ≠ 'i') :
    siteOkB t = true := by
  cases t with
  | nil => rfl
  | cons c1 t1 =>
    cases t1 with
    | nil => rfl
    | cons c2 b =>
      rw [siteOkB_cons2, if_neg]
      intro hand
      exact h c1 rfl hand.1

theorem siteOkB_of_second_ne_d {c1 : Char} {t : Str}
    (h : ∀ y, t.head? = some y → y ≠ 'd') : siteOkB (c1 :: t) = true := by
  cases t with
  | nil => rfl
  | cons c2 b =>
    rw [siteOkB_cons2, if_neg]
    intro hand
    exact h c2 rfl hand.2

theorem siteOkB_truncId_of_not_id (rest : Str) (hno : ∀ b, rest ≠ 'i' :: 'd' :: b) :
    siteOkB (truncId rest) = true := by
  rcases rest with _ | ⟨c1, rest1⟩
  · rw [truncId_nil]
    rfl
  · by_cases h1 : c1 = 'i'
    · subst h1
      rw [truncId_cons_ne 'i' _ (by decide)]
      apply siteOkB_of_second_ne_d
      apply head_prop_truncId (P := fun y => y ≠ 'd')
      intro y hy hyd
      subst hyd
      cases rest1 with
      | nil => exact absurd hy (by simp)
      | cons c2 t2 =>
        simp only [List.head?_cons, Option.some.injEq] at hy
        exact hno t2 (by rw [hy])
    · apply siteOkB_of_head_ne_i
      apply head_prop_truncId (P := fun y => y ≠ 'i')
      intro y hy
      simp only [List.head?_cons, Option.some.injEq] at hy
      intro hyi
      apply h1
      rw [hy, hyi]

/-- `truncId` always produces a string on which it is the identity. -/
theorem idOkB_truncId :
    ∀ (n : Nat) (l : Str), l.length ≤ n → idOkB (truncId l) = true := by
  intro n
  induction n with
  | zero =>
    intro l hl
    have hnil : l = [] := List.eq_nil_of_length_eq_zero (Nat.le_zero.mp hl)
    subst hnil
    rw [truncId_nil]
    rfl
  | succ n ih =>
    intro l hl
    match l with
    | [] => rw [truncId_nil]; rfl
    | c :: rest =>
      simp only [List.length_cons] at hl
      by_cases hc : c = '\\'
      · subst hc
        rcases bs_shape rest with ⟨b, rfl⟩ | hno
        · simp only [List.length_cons] at hl
          rw [truncId_bsid]
          by_cases hw : (b.takeWhile isPySpace).isEmpty = true
          · rw [if_pos hw, truncId_cons_ne 'i' _ (by decide),
              truncId_cons_ne 'd' _ (by decide), idOkB_cons_bs]
            simp only [Bool.and_eq_true]
            constructor
            · rw [siteOkB_id]
              have hwb : b.takeWhile isPySpace = [] := List.isEmpty_iff.mp hw
              have htw : (truncId b).takeWhile isPySpace = [] :=
                takeWhile_eq_nil_of_head
                  (head_prop_truncId (P := fun y => isPySpace y = false)
                    (head_false_of_takeWhile_nil hwb))
              unfold siteCheckB
              simp only [Bool.or_eq_true]
              left
              left
              rw [htw]
              rfl
            · rw [idOkB_cons_ne _ (by decide), idOkB_cons_ne _ (by decide)]
              exact ih b (by omega)
          · rw [if_neg hw]
            have hws : ∀ c ∈ b.takeWhile isPySpace, isPySpace c = true :=
              fun c hc => mem_takeWhile_true c hc
            have htr : truncId b = b.takeWhile isPySpace ++
                truncId (b.dropWhile isPySpace) := by
              conv_lhs => rw [← List.takeWhile_append_dropWhile (p := isPySpace) (l := b)]
              exact truncId_append_no_bs _ (fun c hc => isPySpace_ne_bs (hws c hc))
            have hd1 : (truncId b).dropWhile isPySpace
                = truncId (b.dropWhile isPySpace) := by
              rw [htr, dropWhile_append_of_all _ hws]
              exact dropWhile_eq_self_of_head
                (head_prop_truncId (P := fun y => isPySpace y = false)
                  (head_dropWhile_false isPySpace b))
            by_cases hcd : ((b.dropWhile isPySpace).takeWhile isUpperDigit).isEmpty = true
            · rw [if_pos hcd, truncId_cons_ne 'i' _ (by decide),
                truncId_cons_ne 'd' _ (by decide), idOkB_cons_bs]
              simp only [Bool.and_eq_true]
              constructor
              · rw [siteOkB_id]
                have hcdb : (b.dropWhile isPySpace).takeWhile isUpperDigit = [] :=
                  List.isEmpty_iff.mp hcd
                have htw2 : ((truncId b).dropWhile isPySpace).takeWhile isUpperDigit = [] := by
                  rw [hd1]
                  exact takeWhile_eq_nil_of_head
                    (head_prop_truncId (P := fun y => isUpperDigit y = false)
                      (head_false_of_takeWhile_nil hcdb))
                unfold siteCheckB
                simp only [Bool.or_eq_true]
                left
                right
                rw [htw2]
                rfl
              · rw [idOkB_cons_ne _ (by decide), idOkB_cons_ne _ (by decide)]
                exact ih b (by omega)
            · rw [if_neg hcd]
              have hcode : ∀ c ∈ (b.dropWhile isPySpace).takeWhile isUpperDigit,
                  isUpperDigit c = true := fun c hc => mem_takeWhile_true c hc
              have hr3head : ∀ y, ((((b.dropWhile isPySpace).dropWhile
                  isUpperDigit).dropWhile (fun c => c != '\n'))).head? = some y →
                  y = '\n' := by
                intro y hy
                have := head_dropWhile_false (fun c => c != '\n') _ y hy
                simpa using this
              have hT3head : ∀ y, (truncId ((((b.dropWhile isPySpace).dropWhile
                  isUpperDigit).dropWhile (fun c => c != '\n')))).head? = some y →
                  y = '\n' :=
                head_prop_truncId (P := fun y => y = '\n') hr3head
              obtain ⟨c0, code', hcode'⟩ : ∃ c0 code',
                  (b.dropWhile isPySpace).takeWhile isUpperDigit = c0 :: code' := by
                cases hx : (b.dropWhile isPySpace).takeWhile isUpperDigit with
                | nil => rw [hx] at hcd; exact absurd rfl hcd
                | cons c0 code' => exact ⟨c0, code', rfl⟩
              have hc0 : isUpperDigit c0 = true := by
                apply hcode
                rw [hcode']
                exact List.mem_cons_self c0 code'
              simp only [List.cons_append]
              rw [idOkB_cons_bs]
              simp only [Bool.and_eq_true]
              constructor
              · rw [siteOkB_id]
                unfold siteCheckB
                simp only [Bool.or_eq_true, Bool.and_eq_true, decide_eq_true_eq]
                right
                have hheadCT : ∀ y, (((b.dropWhile isPySpace).takeWhile isUpperDigit) ++
                    truncId ((((b.dropWhile isPySpace).dropWhile isUpperDigit).dropWhile
                      (fun c => c != '\n')))).head? = some y → isPySpace y = false := by
                  intro y hy
                  rw [hcode', List.cons_append, List.head?_cons,
                    Option.some.injEq] at hy
                  rw [← hy]
                  exact isUpperDigit_not_pySpace hc0
                have e1 : (' ' :: (((b.dropWhile isPySpace).takeWhile isUpperDigit) ++
                    truncId ((((b.dropWhile isPySpace).dropWhile isUpperDigit).dropWhile
                      (fun c => c != '\n'))))).dropWhile isPySpace =
                    ((b.dropWhile isPySpace).takeWhile isUpperDigit) ++
                    truncId ((((b.dropWhile isPySpace).dropWhile isUpperDigit).dropWhile
                      (fun c => c != '\n'))) := by
                  rw [List.dropWhile_cons, if_pos (by decide)]
                  exact dropWhile_eq_self_of_head hheadCT
                refine ⟨⟨?_, ?_⟩, ?_⟩
                · -- the whitespace run of the rebuilt site is exactly one space
                  rw [List.takeWhile_cons, if_pos (by decide),
                    takeWhile_eq_nil_of_head hheadCT]
                · -- the code of the rebuilt site is nonempty
                  rw [e1, hcode', List.cons_append, List.takeWhile_cons, if_pos hc0]
                  rfl
                · -- nothing remains on the line after the code
                  have e2 : (((b.dropWhile isPySpace).takeWhile isUpperDigit) ++
                      truncId ((((b.dropWhile isPySpace).dropWhile isUpperDigit).dropWhile
                        (fun c => c != '\n')))).dropWhile isUpperDigit =
                      truncId ((((b.dropWhile isPySpace).dropWhile isUpperDigit).dropWhile
                        (fun c => c != '\n'))) := by
                    rw [dropWhile_append_of_all _ hcode]
                    apply dropWhile_eq_self_of_head
                    intro y hy
                    rw [hT3head y hy]
                    decide
                  have e3 : (truncId ((((b.dropWhile isPySpace).dropWhile
                      isUpperDigit).dropWhile (fun c => c != '\n')))).takeWhile
                      (fun c => c != '\n') = [] := by
                    apply takeWhile_eq_nil_of_head
                    intro y hy
                    rw [hT3head y hy]
                    decide
                  rw [e1, e2, e3]
                  rfl
              · rw [idOkB_cons_ne _ (by decide), idOkB_cons_ne _ (by decide),
                  idOkB_cons_ne _ (by decide),
                  idOkB_append_no_bs _ (fun c hc => isUpperDigit_ne_bs (hcode c hc))]
                refine ih _ ?_
                have d1 := dropWhile_length_le isPySpace b
                have d2 := dropWhile_length_le isUpperDigit (b.dropWhile isPySpace)
                have d3 := dropWhile_length_le (fun c => c != '\n')
                  ((b.dropWhile isPySpace).dropWhile isUpperDigit)
                omega
        · rw [truncId_bs_notid rest hno, idOkB_cons_bs]
          simp only [Bool.and_eq_true]
          exact ⟨siteOkB_truncId_of_not_id rest hno, ih rest (by omega)⟩
      · rw [truncId_cons_ne c rest hc, idOkB_cons_ne _ hc]
        exact ih rest (by omega)

/- ### The spacing substitutions preserve the truncation fixpoint -/

theorem insert_cons_no_match (q : Char → Char → Bool) (s : Char) (t : Str)
    (h : ∀ y, t.head? = some y → q s y = false) :
    insertSpaceBetween q (s :: t) = s :: insertSpaceBetween q t := by
  cases t with
  | nil => rfl
  | cons c2 r =>
    show (if q s c2 then s :: ' ' :: c2 :: insertSpaceBetween q r
          else s :: insertSpaceBetween q (c2 :: r)) = _
    rw [if_neg]
    rw [h c2 rfl]
    exact Bool.false_ne_true

theorem insert_space_prefix (q : Char → Char → Bool)
    (hP2 : ∀ c b, isPySpace c = true → q c b = false)
    {ws : Str} (hws : ∀ c ∈ ws, isPySpace c = true) (y : Str) :
    insertSpaceBetween q (ws ++ y) = ws ++ insertSpaceBetween q y := by
  induction ws with
  | nil => rfl
  | cons s t ih =>
    rw [List.cons_append, insert_cons_no_match q s _
      (fun z _ => hP2 s z (hws s (List.mem_cons_self s t))),
      ih (fun c hc => hws c (List.mem_cons_of_mem s hc))]
    rfl

theorem insert_code_append (q : Char → Char → Bool)
    (hTC4 : ∀ c c', isUpperDigit c = true → isUpperDigit c' = true → q c c' = false)
    (hTC5 : ∀ c, q c '\n' = false)
    {code : Str} (hcode : ∀ c ∈ code, isUpperDigit c = true)
    {y : Str} (hy : ∀ z, y.head? = some z → z = '\n') :
    insertSpaceBetween q (code ++ y) = code ++ insertSpaceBetween q y := by
  induction code with
  | nil => rfl
  | cons x t ih =>
    have hh : ∀ z, (t ++ y).head? = some z → q x z = false := by
      intro z hz
      cases t with
      | nil =>
        simp only [List.nil_append] at hz
        rw [hy z hz]
        exact hTC5 x
      | cons c' t' =>
        simp only [List.cons_append, List.head?_cons, Option.some.injEq] at hz
        rw [← hz]
        exact hTC4 x c' (hcode x (List.mem_cons_self x _))
          (hcode c' (List.mem_cons_of_mem x (List.mem_cons_self c' t')))
    rw [List.cons_append, insert_cons_no_match q x _ hh,
      ih (fun c hc => hcode c (List.mem_cons_of_mem x hc))]
    rfl

theorem head_prop_insert {q : Char → Char → Bool} {P : Char → Prop} {x : Str}
    (h : ∀ y, x.head? = some y → P y) :
    ∀ y, (insertSpaceBetween q x).head? = some y → P y :=
  fun y hy => h y (by rwa [insertSpaceBetween_head] at hy)

theorem siteCheckB_insert (q : Char → Char → Bool)
    (hP2 : ∀ c b, isPySpace c = true → q c b = false)
    (hTC4 : ∀ c c', isUpperDigit c = true → isUpperDigit c' = true → q c c' = false)
    (hTC5 : ∀ c, q c '\n' = false)
    (b : Str) (h : siteCheckB b = true) :
    siteCheckB (insertSpaceBetween q b) = true := by
  unfold siteCheckB at h ⊢
  simp only [Bool.or_eq_true, Bool.and_eq_true, decide_eq_true_eq,
    List.isEmpty_iff, Bool.not_eq_true'] at h ⊢
  rcases h with (h1 | h2) | ⟨⟨h3a, h3ne⟩, h3b⟩
  · left
    left
    exact takeWhile_eq_nil_of_head
      (head_prop_insert (P := fun y => isPySpace y = false)
        (head_false_of_takeWhile_nil h1))
  · left
    right
    have hfb : insertSpaceBetween q b = b.takeWhile isPySpace ++
        insertSpaceBetween q (b.dropWhile isPySpace) := by
      conv_lhs => rw [← List.takeWhile_append_dropWhile (p := isPySpace) (l := b)]
      exact insert_space_prefix q hP2 (fun c hc => mem_takeWhile_true c hc) _
    rw [hfb, dropWhile_append_of_all _ (fun c hc => mem_takeWhile_true c hc),
      dropWhile_eq_self_of_head
        (head_prop_insert (P := fun y => isPySpace y = false)
          (head_dropWhile_false isPySpace b))]
    exact takeWhile_eq_nil_of_head
      (head_prop_insert (P := fun y => isUpperDigit y = false)
        (head_false_of_takeWhile_nil h2))
  · right
    obtain ⟨c0, code', hcode'⟩ : ∃ c0 code',
        (b.dropWhile isPySpace).takeWhile isUpperDigit = c0 :: code' := by
      cases hx : (b.dropWhile isPySpace).takeWhile isUpperDigit with
      | nil => rw [hx] at h3ne; exact absurd h3ne (by decide)
      | cons c0 code' => exact ⟨c0, code', rfl⟩
    have hcode : ∀ c ∈ (b.dropWhile isPySpace).takeWhile isUpperDigit,
        isUpperDigit c = true := fun c hc => mem_takeWhile_true c hc
    have hc0 : isUpperDigit c0 = true := by
      apply hcode
      rw [hcode']
      exact List.mem_cons_self c0 code'
    have hr2head : ∀ z, ((b.dropWhile isPySpace).dropWhile isUpperDigit).head?
        = some z → z = '\n' := by
      intro z hz
      have := head_false_of_takeWhile_nil h3b z hz
      simpa using this
    have hb : b = ' ' :: ((b.dropWhile isPySpace).takeWhile isUpperDigit ++
        (b.dropWhile isPySpace).dropWhile isUpperDigit) := by
      set d := b.dropWhile isPySpace with hd
      rw [List.takeWhile_append_dropWhile]
      have h0 := List.takeWhile_append_dropWhile (p := isPySpace) (l := b)
      rw [h3a, ← hd] at h0
      rw [← h0]
      rfl
    have hfb : insertSpaceBetween q b = ' ' ::
        ((b.dropWhile isPySpace).takeWhile isUpperDigit ++
         insertSpaceBetween q ((b.dropWhile isPySpace).dropWhile isUpperDigit)) := by
      conv_lhs => rw [hb]
      rw [insert_cons_no_match q ' ' _ (fun z _ => hP2 ' ' z (by decide)),
        insert_code_append q hTC4 hTC5 hcode hr2head]
    have hheadC : ∀ y, ((b.dropWhile isPySpace).takeWhile isUpperDigit ++
        insertSpaceBetween q ((b.dropWhile isPySpace).dropWhile
          isUpperDigit)).head? = some y → isPySpace y = false := by
      intro y hy
      rw [hcode', List.cons_append, List.head?_cons, Option.some.injEq] at hy
      rw [← hy]
      exact isUpperDigit_not_pySpace hc0
    have e1 : (insertSpaceBetween q b).dropWhile isPySpace =
        (b.dropWhile isPySpace).takeWhile isUpperDigit ++
        insertSpaceBetween q ((b.dropWhile isPySpace).dropWhile isUpperDigit) := by
      rw [hfb, List.dropWhile_cons, if_pos (by decide)]
      exact dropWhile_eq_self_of_head hheadC
    refine ⟨⟨?_, ?_⟩, ?_⟩
    · rw [hfb, List.takeWhile_cons, if_pos (by decide),
        takeWhile_eq_nil_of_head hheadC]
    · rw [e1, hcode', List.cons_append, List.takeWhile_cons, if_pos hc0]
      rfl
    · rw [e1, dropWhile_append_of_all _ hcode,
        dropWhile_eq_self_of_head
          (head_prop_insert (P := fun y => isUpperDigit y = false)
            (fun z hz => by rw [hr2head z hz]; decide))]
      exact takeWhile_eq_nil_of_head
        (head_prop_insert (P := fun y => (y != '\n') = false)
          (fun z hz => by rw [hr2head z hz]; decide))

theorem siteOkB_insert (q : Char → Char → Bool)
    (hP2 : ∀ c b, isPySpace c = true → q c b = false)
    (hTC2 : q 'i' 'd' = false)
    (hTC3 : ∀ c, q 'd' c = true → isPySpace c = false ∧ isUpperDigit c = false)
    (hTC4 : ∀ c c', isUpperDigit c = true → isUpperDigit c' = true → q c c' = false)
    (hTC5 : ∀ c, q c '\n' = false)
    (t : Str) (h : siteOkB t = true) : siteOkB (insertSpaceBetween q t) = true := by
  match t with
  | [] => exact h
  | [c] => exact h
  | c1 :: c2 :: b =>
    by_cases hid : c1 = 'i' ∧ c2 = 'd'
    · obtain ⟨rfl, rfl⟩ := hid
      rw [siteOkB_id] at h
      rw [insert_cons_no_match q 'i' _ (by
        intro y hy
        simp only [List.head?_cons, Option.some.injEq] at hy
        rw [← hy]
        exact hTC2)]
      cases b with
      | nil => rfl
      | cons c r =>
        by_cases hq : q 'd' c = true
        · show siteOkB ('i' :: (if q 'd' c then 'd' :: ' ' :: c :: insertSpaceBetween q r
              else 'd' :: insertSpaceBetween q (c :: r))) = true
          rw [if_pos hq, siteOkB_id]
          obtain ⟨hcsp, hcud⟩ := hTC3 c hq
          unfold siteCheckB
          simp only [Bool.or_eq_true]
          left
          right
          rw [List.dropWhile_cons, if_pos (by decide)]
          rw [dropWhile_eq_self_of_head (x := c :: insertSpaceBetween q r)
            (by intro y hy
                simp only [List.head?_cons, Option.some.injEq] at hy
                rw [← hy]
                exact hcsp)]
          rw [takeWhile_eq_nil_of_head (x := c :: insertSpaceBetween q r)
            (by intro y hy
                simp only [List.head?_cons, Option.some.injEq] at hy
                rw [← hy]
                exact hcud)]
          rfl
        · show siteOkB ('i' :: (if q 'd' c then 'd' :: ' ' :: c :: insertSpaceBetween q r
              else 'd' :: insertSpaceBetween q (c :: r))) = true
          rw [if_neg hq, siteOkB_id]
          exact siteCheckB_insert q hP2 hTC4 hTC5 (c :: r) h
    · have hne : siteOkB (c1 :: c2 :: b) = true := h
      show siteOkB (if q c1 c2 then c1 :: ' ' :: c2 :: insertSpaceBetween q b
            else c1 :: insertSpaceBetween q (c2 :: b)) = true
      by_cases hq : q c1 c2 = true
      · rw [if_pos hq, siteOkB_cons2, if_neg]
        intro hand
        exact hid ⟨hand.1, by cases hand.2⟩
      · rw [if_neg hq]
        obtain ⟨X, hX⟩ : ∃ X, insertSpaceBetween q (c2 :: b) = c2 :: X := by
          cases hf : insertSpaceBetween q (c2 :: b) with
          | nil =>
            have := insertSpaceBetween_head q (c2 :: b)
            rw [hf] at this
            exact absurd this (by simp)
          | cons d X =>
            have := insertSpaceBetween_head q (c2 :: b)
            rw [hf] at this
            simp only [List.head?_cons, Option.some.injEq] at this
            rw [this]
            exact ⟨X, rfl⟩
        rw [hX, siteOkB_cons2, if_neg hid]

/-- The spacing substitutions preserve the truncation fixpoint property. -/
theorem insertSpaceBetween_idOkB (q : Char → Char → Bool)
    (hP2 : ∀ c b, isPySpace c = true → q c b = false)
    (hTC1 : ∀ x, q '\\' x = false)
    (hTC2 : q 'i' 'd' = false)
    (hTC3 : ∀ c, q 'd' c = true → isPySpace c = false ∧ isUpperDigit c = false)
    (hTC4 : ∀ c c', isUpperDigit c = true → isUpperDigit c' = true → q c c' = false)
    (hTC5 : ∀ c, q c '\n' = false) :
    ∀ (n : Nat) (l : Str), l.length ≤ n → idOkB l = true →
      idOkB (insertSpaceBetween q l) = true := by
  intro n
  induction n with
  | zero =>
    intro l hl hok
    have hnil : l = [] := List.eq_nil_of_length_eq_zero (Nat.le_zero.mp hl)
    subst hnil
    exact hok
  | succ n ih =>
    intro l hl hok
    match l with
    | [] => exact hok
    | [c] => exact hok
    | c1 :: c2 :: r =>
      simp only [List.length_cons] at hl
      have hsite2 : c2 = '\\' → siteOkB r = true := by
        intro hc2
        subst hc2
        have h1 := idOkB_tail hok
        rw [idOkB_cons_bs] at h1
        simp only [Bool.and_eq_true] at h1
        exact h1.1
      show idOkB (if q c1 c2 then c1 :: ' ' :: c2 :: insertSpaceBetween q r
            else c1 :: insertSpaceBetween q (c2 :: r)) = true
      by_cases hq : q c1 c2 = true
      · rw [if_pos hq]
        have hc1 : c1 ≠ '\\' := by
          intro hc1
          subst hc1
          rw [hTC1 c2] at hq
          cases hq
        rw [idOkB_cons_ne _ hc1, idOkB_cons_ne _ (by decide)]
        by_cases hc2 : c2 = '\\'
        · subst hc2
          rw [idOkB_cons_bs]
          simp only [Bool.and_eq_true]
          refine ⟨siteOkB_insert q hP2 hTC2 hTC3 hTC4 hTC5 r (hsite2 rfl), ?_⟩
          exact ih r (by omega) (idOkB_tail (idOkB_tail hok))
        · rw [idOkB_cons_ne _ hc2]
          exact ih r (by omega) (idOkB_tail (idOkB_tail hok))
      · rw [if_neg hq]
        by_cases hc1 : c1 = '\\'
        · subst hc1
          rw [idOkB_cons_bs]
          simp only [Bool.and_eq_true]
          constructor
          · apply siteOkB_insert q hP2 hTC2 hTC3 hTC4 hTC5 (c2 :: r)
            rw [idOkB_cons_bs] at hok
            simp only [Bool.and_eq_true] at hok
            exact hok.1
          · exact ih (c2 :: r) (by simp only [List.length_cons]; omega) (idOkB_tail hok)
        · rw [idOkB_cons_ne _ hc1]
          exact ih (c2 :: r) (by simp only [List.length_cons]; omega) (idOkB_tail hok)

/- ### Character-class facts for the four concrete patterns -/

theorem isFixPunct_not_word {c : Char} (h : isFixPunct c = true) : isWordChar c = false := by
  simp only [isFixPunct, Bool.or_eq_true, decide_eq_true_eq] at h
  rcases h with ((((rfl | rfl) | rfl) | rfl) | rfl) | rfl <;> decide

theorem isFixPunct_not_pySpace {c : Char} (h : isFixPunct c = true) :
    isPySpace c = false := by
  simp only [isFixPunct, Bool.or_eq_true, decide_eq_true_eq] at h
  rcases h with ((((rfl | rfl) | rfl) | rfl) | rfl) | rfl <;> decide

theorem isFixPunct_not_upperDigit {c : Char} (h : isFixPunct c = true) :
    isUpperDigit c = false := by
  simp only [isFixPunct, Bool.or_eq_true, decide_eq_true_eq] at h
  rcases h with ((((rfl | rfl) | rfl) | rfl) | rfl) | rfl <;> decide

theorem isWordChar_not_punct {c : Char} (h : isWordChar c = true) :
    isFixPunct c = false := by
  cases hf : isFixPunct c
  · rfl
  · simp only [isFixPunct, Bool.or_eq_true, decide_eq_true_eq] at hf
    rcases hf with ((((rfl | rfl) | rfl) | rfl) | rfl) | rfl <;>
      exact absurd h (by decide)

theorem isWordChar_ne_quote {c : Char} (h : isWordChar c = true) : c ≠ '"' := by
  intro heq
  subst heq
  exact absurd h (by decide)

theorem isWordChar_ne_bs {c : Char} (h : isWordChar c = true) : c ≠ '\\' := by
  intro heq
  subst heq
  exact absurd h (by decide)

/- pairWP = `(\w)([.!?;:,])` -/

theorem pairWP_sp1 : ∀ a, pairWP a ' ' = false := by
  intro a
  show (isWordChar a && isFixPunct ' ') = false
  rw [show (isFixPunct ' ') = false from by decide, Bool.and_false]

theorem pairWP_P2 : ∀ c b, isPySpace c = true → pairWP c b = false := by
  intro c b h
  show (isWordChar c && isFixPunct b) = false
  rw [pySpace_not_word h, Bool.false_and]

theorem pairWP_H2 : ∀ a b c, pairWP a b = true → pairWP b c = false := by
  intro a b c h
  simp only [pairWP, Bool.and_eq_true] at h
  show (isWordChar b && isFixPunct c) = false
  rw [isFixPunct_not_word h.2, Bool.false_and]

theorem pairWP_TC1 : ∀ x, pairWP '\\' x = false := by
  intro x
  show (isWordChar '\\' && isFixPunct x) = false
  rw [show (isWordChar '\\') = false from by decide, Bool.false_and]

theorem pairWP_TC3 : ∀ c, pairWP 'd' c = true →
    isPySpace c = false ∧ isUpperDigit c = false := by
  intro c h
  simp only [pairWP, Bool.and_eq_true] at h
  exact ⟨isFixPunct_not_pySpace h.2, isFixPunct_not_upperDigit h.2⟩

theorem pairWP_TC4 : ∀ c c', isUpperDigit c = true → isUpperDigit c' = true →
    pairWP c c' = false := by
  intro c c' _ h'
  show (isWordChar c && isFixPunct c') = false
  rw [isUpperDigit_not_punct h', Bool.and_false]

theorem pairWP_TC5 : ∀ c, pairWP c '\n' = false := by
  intro c
  show (isWordChar c && isFixPunct '\n') = false
  rw [show (isFixPunct '\n') = false from by decide, Bool.and_false]

/- pairPW = `([.!?;:,])(\w)` -/

theorem pairPW_sp1 : ∀ a, pairPW a ' ' = false := by
  intro a
  show (isFixPunct a && isWordChar ' ') = false
  rw [show (isWordChar ' ') = false from by decide, Bool.and_false]

theorem pairPW_P2 : ∀ c b, isPySpace c = true → pairPW c b = false := by
  intro c b h
  show (isFixPunct c && isWordChar b) = false
  rw [pySpace_not_punct h, Bool.false_and]

theorem pairPW_H2 : ∀ a b c, pairPW a b = true → pairPW b c = false := by
  intro a b c h
  simp only [pairPW, Bool.and_eq_true] at h
  show (isFixPunct b && isWordChar c) = false
  rw [isWordChar_not_punct h.2, Bool.false_and]

theorem pairPW_TC1 : ∀ x, pairPW '\\' x = false := by
  intro x
  show (isFixPunct '\\' && isWordChar x) = false
  rw [show (isFixPunct '\\') = false from by decide, Bool.false_and]

theorem pairPW_TC3 : ∀ c, pairPW 'd' c = true →
    isPySpace c = false ∧ isUpperDigit c = false := by
  intro c h
  have hz : pairPW 'd' c = false := by
    show (isFixPunct 'd' && isWordChar c) = false
    rw [show (isFixPunct 'd') = false from by decide, Bool.false_and]
  rw [hz] at h
  cases h

theorem pairPW_TC4 : ∀ c c', isUpperDigit c = true → isUpperDigit c' = true →
    pairPW c c' = false := by
  intro c c' h _
  show (isFixPunct c && isWordChar c') = false
  rw [isUpperDigit_not_punct h, Bool.false_and]

theorem pairPW_TC5 : ∀ c, pairPW c '\n' = false := by
  intro c
  show (isFixPunct c && isWordChar '\n') = false
  rw [show (isWordChar '\n') = false from by decide, Bool.and_false]

/- pairQW = `"(\w)` -/

theorem pairQW_sp1 : ∀ a, pairQW a ' ' = false := by
  intro a
  show (decide (a = '"') && isWordChar ' ') = false
  rw [show (isWordChar ' ') = false from by decide, Bool.and_false]

theorem pairQW_P2 : ∀ c b, isPySpace c = true → pairQW c b = false := by
  intro c b h
  show (decide (c = '"') && isWordChar b) = false
  rw [decide_eq_false (pySpace_ne_quote h), Bool.false_and]

theorem pairQW_H2 : ∀ a b c, pairQW a b = true → pairQW b c = false := by
  intro a b c h
  simp only [pairQW, Bool.and_eq_true] at h
  show (decide (b = '"') && isWordChar c) = false
  rw [decide_eq_false (isWordChar_ne_quote h.2), Bool.false_and]

theorem pairQW_TC1 : ∀ x, pairQW '\\' x = false := by
  intro x
  show (decide ('\\' = '"') && isWordChar x) = false
  rw [show (decide ('\\' = '"')) = false from by decide, Bool.false_and]

theorem pairQW_TC3 : ∀ c, pairQW 'd' c = true →
    isPySpace c = false ∧ isUpperDigit c = false := by
  intro c h
  have hz : pairQW 'd' c = false := by
    show (decide ('d' = '"') && isWordChar c) = false
    rw [show (decide ('d' = '"')) = false from by decide, Bool.false_and]
  rw [hz] at h
  cases h

theorem pairQW_TC4 : ∀ c c', isUpperDigit c = true → isUpperDigit c' = true →
    pairQW c c' = false := by
  intro c c' h _
  show (decide (c = '"') && isWordChar c') = false
  rw [decide_eq_false (isUpperDigit_ne_quote h), Bool.false_and]

theorem pairQW_TC5 : ∀ c, pairQW c '\n' = false := by
  intro c
  show (decide (c = '"') && isWordChar '\n') = false
  rw [show (isWordChar '\n') = false from by decide, Bool.and_false]

/- pairWB = `(\w)\\` -/

theorem pairWB_sp1 : ∀ a, pairWB a ' ' = false := by
  intro a
  show (isWordChar a && decide (' ' = '\\')) = false
  rw [show (decide (' ' = '\\')) = false from by decide, Bool.and_false]

theorem pairWB_P2 : ∀ c b, isPySpace c = true → pairWB c b = false := by
  intro c b h
  show (isWordChar c && decide (b = '\\')) = false
  rw [pySpace_not_word h, Bool.false_and]

theorem pairWB_H2 : ∀ a b c, pairWB a b = true → pairWB b c = false := by
  intro a b c h
  simp only [pairWB, Bool.and_eq_true, decide_eq_true_eq] at h
  show (isWordChar b && decide (c = '\\')) = false
  rw [h.2, show (isWordChar '\\') = false from by decide, Bool.false_and]

theorem pairWB_TC1 : ∀ x, pairWB '\\' x = false := by
  intro x
  show (isWordChar '\\' && decide (x = '\\')) = false
  rw [show (isWordChar '\\') = false from by decide, Bool.false_and]

theorem pairWB_TC3 : ∀ c, pairWB 'd' c = true →
    isPySpace c = false ∧ isUpperDigit c = false := by
  intro c h
  simp only [pairWB, Bool.and_eq_true, decide_eq_true_eq] at h
  rw [h.2]
  exact ⟨by decide, by decide⟩

theorem pairWB_TC4 : ∀ c c', isUpperDigit c = true → isUpperDigit c' = true →
    pairWB c c' = false := by
  intro c c' _ h'
  show (isWordChar c && decide (c' = '\\')) = false
  rw [decide_eq_false (isUpperDigit_ne_bs h'), Bool.and_false]

theorem pairWB_TC5 : ∀ c, pairWB c '\n' = false := by
  intro c
  show (isWordChar c && decide ('\n' = '\\')) = false
  rw [show (decide ('\n' = '\\')) = false from by decide, Bool.and_false]

theorem pairWP_TC2 : pairWP 'i' 'd' = false := by decide

theorem pairPW_TC2 : pairPW 'i' 'd' = false := by decide

theorem pairQW_TC2 : pairQW 'i' 'd' = false := by decide

theorem pairWB_TC2 : pairWB 'i' 'd' = false := by decide

/- ### Assembly: the composite post-processing pass is idempotent -/

theorem idOkB_postFix (l : Str) : idOkB (postFix l) = true := by
  show idOkB (insertSpaceBetween pairWB (insertSpaceBetween pairQW
    (insertSpaceBetween pairPW (insertSpaceBetween pairWP (truncId l))))) = true
  apply insertSpaceBetween_idOkB pairWB pairWB_P2 pairWB_TC1 pairWB_TC2 pairWB_TC3
    pairWB_TC4 pairWB_TC5 _ _ le_rfl
  apply insertSpaceBetween_idOkB pairQW pairQW_P2 pairQW_TC1 pairQW_TC2 pairQW_TC3
    pairQW_TC4 pairQW_TC5 _ _ le_rfl
  apply insertSpaceBetween_idOkB pairPW pairPW_P2 pairPW_TC1 pairPW_TC2 pairPW_TC3
    pairPW_TC4 pairPW_TC5 _ _ le_rfl
  apply insertSpaceBetween_idOkB pairWP pairWP_P2 pairWP_TC1 pairWP_TC2 pairWP_TC3
    pairWP_TC4 pairWP_TC5 _ _ le_rfl
  exact idOkB_truncId l.length l le_rfl

theorem noPat_postFix_WP (l : Str) : noPat pairWP (postFix l) := by
  show noPat pairWP (insertSpaceBetween pairWB (insertSpaceBetween pairQW
    (insertSpaceBetween pairPW (insertSpaceBetween pairWP (truncId l)))))
  apply insertSpaceBetween_noPat_other pairWB pairWP pairWP_sp1
    (fun b => pairWP_P2 ' ' b (by decide)) _ _ le_rfl
  apply insertSpaceBetween_noPat_other pairQW pairWP pairWP_sp1
    (fun b => pairWP_P2 ' ' b (by decide)) _ _ le_rfl
  apply insertSpaceBetween_noPat_other pairPW pairWP pairWP_sp1
    (fun b => pairWP_P2 ' ' b (by decide)) _ _ le_rfl
  exact insertSpaceBetween_noPat_self pairWP pairWP_sp1
    (fun b => pairWP_P2 ' ' b (by decide)) pairWP_H2 _ _ le_rfl

theorem noPat_postFix_PW (l : Str) : noPat pairPW (postFix l) := by
  show noPat pairPW (insertSpaceBetween pairWB (insertSpaceBetween pairQW
    (insertSpaceBetween pairPW (insertSpaceBetween pairWP (truncId l)))))
  apply insertSpaceBetween_noPat_other pairWB pairPW pairPW_sp1
    (fun b => pairPW_P2 ' ' b (by decide)) _ _ le_rfl
  apply insertSpaceBetween_noPat_other pairQW pairPW pairPW_sp1
    (fun b => pairPW_P2 ' ' b (by decide)) _ _ le_rfl
  exact insertSpaceBetween_noPat_self pairPW pairPW_sp1
    (fun b => pairPW_P2 ' ' b (by decide)) pairPW_H2 _ _ le_rfl

theorem noPat_postFix_QW (l : Str) : noPat pairQW (postFix l) := by
  show noPat pairQW (insertSpaceBetween pairWB (insertSpaceBetween pairQW
    (insertSpaceBetween pairPW (insertSpaceBetween pairWP (truncId l)))))
  apply insertSpaceBetween_noPat_other pairWB pairQW pairQW_sp1
    (fun b => pairQW_P2 ' ' b (by decide)) _ _ le_rfl
  exact insertSpaceBetween_noPat_self pairQW pairQW_sp1
    (fun b => pairQW_P2 ' ' b (by decide)) pairQW_H2 _ _ le_rfl

theorem noPat_postFix_WB (l : Str) : noPat pairWB (postFix l) :=
  insertSpaceBetween_noPat_self pairWB pairWB_sp1
    (fun b => pairWB_P2 ' ' b (by decide)) pairWB_H2 _ _ le_rfl

/-- C6: the post-processing fix-up passes (identifier-line truncation followed
by the four spacing substitutions, in source order) form an idempotent
composite: applying `postFix` to its own output returns it unchanged. -/
theorem postFix_idempotent (l : Str) : postFix (postFix l) = postFix l := by
  have htrunc : truncId (postFix l) = postFix l :=
    truncId_fixed_of_idOkB (postFix l).length (postFix l) le_rfl (idOkB_postFix l)
  show spacingFixups (truncId (postFix l)) = postFix l
  rw [htrunc]
  show insertSpaceBetween pairWB (insertSpaceBetween pairQW
    (insertSpaceBetween pairPW (insertSpaceBetween pairWP (postFix l)))) = postFix l
  rw [insertSpaceBetween_fixed pairWP (postFix l).length (postFix l) le_rfl
    (noPat_postFix_WP l)]
  rw [insertSpaceBetween_fixed pairPW (postFix l).length (postFix l) le_rfl
    (noPat_postFix_PW l)]
  rw [insertSpaceBetween_fixed pairQW (postFix l).length (postFix l) le_rfl
    (noPat_postFix_QW l)]
  rw [insertSpaceBetween_fixed pairWB (postFix l).length (postFix l) le_rfl
    (noPat_postFix_WB l)]

end Fourwords
